import Mathlib

/-!
# Verification of the module-aware dependency resolver

Shallow embedding of `src/cuv/dep_resolver.py` (`resolve_dependencies` and its
`Node`/`FileNode`/`ModuleNode` data model), together with proofs about it.

The Python code threads two insertion-ordered mappings (`graph`, `reverse_graph`,
both `defaultdict(set)`) through four phases:
1. provides pass: module node → provider file node edges;
2. requires pass: file node → module node edges, with external modules' forward
   sets reset to empty;
3. module elimination: every module node is removed, two-hop consumer→module→provider
   paths are contracted to direct consumer→provider edges;
4. Kahn topological sort over `in_degree` (a `defaultdict(int)`), followed by a
   length check that raises `RuntimeError("Detected cycle in module dependency graph!")`,
   and emission of `(node.name, [d.name for d in deps])` tasks.

Python dicts are modelled as insertion-ordered association lists (new keys appended
at the end, exactly as dict/defaultdict insertion order); Python sets are modelled
as duplicate-free lists (membership-guarded append).  All claims proved below are
either membership-based or forced by the edge relation, so they are insensitive to
the one place where Python set iteration order is unspecified.
-/

set_option maxHeartbeats 1000000

namespace Cuv

/-- A graph vertex.  `Node.file` models `FileNode` (hashable name `"file:" + name`)
and `Node.mod` models `ModuleNode` (hashable name `"module:" + name`): equality is
kind-qualified, exactly as the prefixed `hashable_name` makes it in the source. -/
inductive Node where
  | file : String → Node
  | mod : String → Node
deriving DecidableEq, Repr

/-- `node.name` as used by the task emitter (the unprefixed name). -/
def Node.name : Node → String
  | .file s => s
  | .mod s => s

/-- Whether a node is a `ModuleNode` (`isinstance(n, ModuleNode)`). -/
def Node.isMod : Node → Bool
  | .file _ => false
  | .mod _ => true

/-- One rule of the scanner output `json_deps["rules"]`: its `"primary-output"`
and the `"logical-name"` fields of its `"provides"` / `"requires"` entries
(the only fields the resolver reads). -/
structure Rule where
  primaryOutput : String
  provides : List String
  requires : List String
deriving DecidableEq, Repr

/-- `std_modules` from the source. -/
def stdModules : List String := ["iostream", "std"]

/-- A Python `dict`/`defaultdict(set)` from nodes to node sets: an association
list in key-insertion order whose value lists are duplicate-free. -/
abbrev Graph := List (Node × List Node)

/-- Lookup of a key (first, and by invariant only, binding). -/
def lookupG : Graph → Node → Option (List Node)
  | [], _ => none
  | (k, v) :: rest, n => if k = n then some v else lookupG rest n

/-- The value set of `n`, `[]` when absent (a `defaultdict(set)` read). -/
def getD (g : Graph) (n : Node) : List Node := (lookupG g n).getD []

/-- `n in d` for the underlying dict. -/
def hasKey (g : Graph) (n : Node) : Bool := (lookupG g n).isSome

/-- The key list, in insertion order (`for n in d`). -/
def keys (g : Graph) : List Node := g.map Prod.fst

/-- `d[a].add(b)` on a `defaultdict(set)`: create `a ↦ {b}` at the end if `a` is
absent, otherwise add `b` to `a`'s set (no-op when already present). -/
def addVal : Graph → Node → Node → Graph
  | [], a, b => [(a, [b])]
  | (k, v) :: rest, a, b =>
    if k = a then (k, if b ∈ v then v else v ++ [b]) :: rest
    else (k, v) :: addVal rest a b

/-- `d[a] = set(...)`: overwrite `a`'s set, appending the key if absent. -/
def setVal : Graph → Node → List Node → Graph
  | [], a, v => [(a, v)]
  | (k, w) :: rest, a, v => if k = a then (k, v) :: rest else (k, w) :: setVal rest a v

/-- `if a not in d: d[a] = set()`. -/
def touch (g : Graph) (a : Node) : Graph := if hasKey g a then g else g ++ [(a, [])]

/-- `d[a].discard(b)` (a `defaultdict` read creates `a ↦ {}` when absent). -/
def dropVal : Graph → Node → Node → Graph
  | [], a, _ => [(a, [])]
  | (k, v) :: rest, a, b =>
    if k = a then (k, v.filter (· ≠ b)) :: rest else (k, v) :: dropVal rest a b

/-- `del d[a]` (at every call site of the source the key is present, possibly as
an empty set just created by a `defaultdict` read, so deleting by filtering is
exact). -/
def delKey (g : Graph) (a : Node) : Graph := g.filter (fun kv => kv.1 ≠ a)

/-- First pass (source lines 53–63): for each rule, for each `provides` entry,
ensure the provider file is a graph key, then add the module → provider edge and
its reverse edge. -/
def provideStep (st : Graph × Graph) (r : Rule) : Graph × Graph :=
  r.provides.foldl
    (fun st m =>
      let fileNode := Node.file r.primaryOutput
      let modNode := Node.mod m
      let g := touch st.1 fileNode
      (addVal g modNode fileNode, addVal st.2 fileNode modNode))
    st

/-- One `requires` entry (source lines 69–81): external module names (members of
`std_modules` or of the caller-supplied set, which the source unions with
`std_modules`) get their forward set reset to empty; then the file → module edge
and its reverse are added. -/
def requireOne (ext : List String) (fileNode : Node) (st : Graph × Graph) (m : String) :
    Graph × Graph :=
  let modNode := Node.mod m
  let g := if m ∈ stdModules then setVal st.1 modNode []
           else if m ∈ ext then setVal st.1 modNode []
           else st.1
  (addVal g fileNode modNode, addVal st.2 modNode fileNode)

/-- Second pass over one rule. -/
def requireStep (ext : List String) (st : Graph × Graph) (r : Rule) : Graph × Graph :=
  r.requires.foldl (requireOne ext (Node.file r.primaryOutput)) st

/-- The builder: both passes over the rule list, starting from empty mappings. -/
def buildGraphs (ext : List String) (rules : List Rule) : Graph × Graph :=
  rules.foldl (requireStep ext) (rules.foldl provideStep ([], []))

/-- Elimination of one module node (source lines 88–107): snapshot its users
(`reverse_graph[mod]`) and providers (`graph[mod]`); for each user add a direct
edge to every provider (both directions) and drop the user → module edge; then
drop the module from each provider's reverse set and delete both of its keys. -/
def elimOne (st : Graph × Graph) (m : Node) : Graph × Graph :=
  let users := getD st.2 m
  let providers := getD st.1 m
  let st2 := users.foldl
    (fun st u =>
      let st3 := providers.foldl (fun st p => (addVal st.1 u p, addVal st.2 p u)) st
      (dropVal st3.1 u m, st3.2))
    st
  let rg2 := providers.foldl (fun rg p => dropVal rg p m) st2.2
  (delKey st2.1 m, delKey rg2 m)

/-- An entry of `in_degree` (`defaultdict(int)`, so values may go negative). -/
abbrev DegList := List (Node × Int)

/-- Lookup in `in_degree` without the defaultdict write. -/
def degLookup : DegList → Node → Option Int
  | [], _ => none
  | (k, v) :: rest, n => if k = n then some v else degLookup rest n

/-- `in_degree[n] -= 1` (a missing key is created as `0` and decremented). -/
def decDeg : DegList → Node → DegList
  | [], n => [(n, -1)]
  | (k, v) :: rest, n => if k = n then (k, v - 1) :: rest else (k, v) :: decDeg rest n

/-- `for node, deps in graph.items(): in_degree[node] += len(deps)` — each graph
key appears once, so the entry is exactly the size of its dependency set. -/
def buildDeg (g : Graph) : DegList := g.map (fun kv => (kv.1, (kv.2.length : Int)))

/-- Processing of one popped node's reverse neighbour: decrement its in-degree
and enqueue it when the decremented value is exactly `0`. -/
def stepNbr (acc : List Node × DegList) (nb : Node) : List Node × DegList :=
  let d2 := decDeg acc.2 nb
  (if degLookup d2 nb = some 0 then acc.1 ++ [nb] else acc.1, d2)

/-- The Kahn loop (source lines 115–125), with explicit fuel.  Each iteration
pops the queue head, appends it to the order, and processes its reverse
neighbours.  `sortFuel` below strictly exceeds a quantity that decreases at every
iteration, so with that fuel the zero-fuel branch is unreachable and the loop is
exactly the Python `while queue`. -/
def sortLoopF (rg : Graph) : Nat → List Node → List Node → DegList → List Node × DegList
  | 0, _, out, deg => (out, deg)
  | _ + 1, [], out, deg => (out, deg)
  | fuel + 1, n :: q, out, deg =>
    let acc := (getD rg n).foldl stepNbr (q, deg)
    sortLoopF rg fuel acc.1 (out ++ [n]) acc.2

/-- Sum of the positive parts of the in-degree values; `queue length + sumPos`
strictly decreases at every loop iteration (an enqueue happens only when a value
steps from `1` to `0`). -/
def sumPos (d : DegList) : Nat := (d.map (fun kv => kv.2.toNat)).sum

/-- The constant message of the `RuntimeError` raised on the length mismatch. -/
def cycleMsg : String := "Detected cycle in module dependency graph!"

/-- The list of module keys at the start of elimination
(`[n for n in graph if isinstance(n, ModuleNode)]`). -/
def modKeysOf (ext : List String) (rules : List Rule) : List Node :=
  (keys (buildGraphs ext rules).1).filter Node.isMod

/-- The file-only graphs after eliminating every module key. -/
def elimGraphs (ext : List String) (rules : List Rule) : Graph × Graph :=
  (modKeysOf ext rules).foldl elimOne (buildGraphs ext rules)

/-- The initial queue: keys of `in_degree` whose value is `0`, in insertion order. -/
def initQueue (deg : DegList) : List Node :=
  (deg.filter (fun kv => kv.2 = 0)).map Prod.fst

/-- The fuel used to run the Kahn loop; strictly larger than the decreasing
measure, so the loop always runs to queue exhaustion (see `sortLoopF_fuel_irrel`). -/
def sortFuel (q : List Node) (deg : DegList) : Nat := q.length + sumPos deg + 1

/-- `resolve_dependencies(json_deps, external_modules)`: either the ordered task
list `(node.name, [d.name for d in graph[node]])`, or the `RuntimeError` message
when the topological order misses part of `in_degree`.  `ext` is the
caller-supplied external-module set (`[]` models the `None` default). -/
def resolve (rules : List Rule) (ext : List String) :
    Except String (List (String × List String)) :=
  let st := elimGraphs ext rules
  let deg := buildDeg st.1
  let q := initQueue deg
  let res := sortLoopF st.2 (sortFuel q deg) q [] deg
  if res.1.length ≠ res.2.length then Except.error cycleMsg
  else Except.ok (res.1.map (fun n => (n.name, (getD st.1 n).map Node.name)))

/-- The pair (topological order, final in-degree dictionary) computed by the
Kahn loop of `resolve`. -/
def sortedOf (ext : List String) (rules : List Rule) : List Node × DegList :=
  sortLoopF (elimGraphs ext rules).2
    (sortFuel (initQueue (buildDeg (elimGraphs ext rules).1))
      (buildDeg (elimGraphs ext rules).1))
    (initQueue (buildDeg (elimGraphs ext rules).1)) []
    (buildDeg (elimGraphs ext rules).1)

instance {ε α : Type} [DecidableEq ε] [DecidableEq α] : DecidableEq (Except ε α) := fun a b =>
  match a, b with
  | .ok x, .ok y => if h : x = y then .isTrue (by rw [h]) else .isFalse (by simp [h])
  | .error x, .error y => if h : x = y then .isTrue (by rw [h]) else .isFalse (by simp [h])
  | .ok _, .error _ => .isFalse (by simp)
  | .error _, .ok _ => .isFalse (by simp)

/-- The identifier column of a task list. -/
def taskIds (ts : List (String × List String)) : List String := ts.map Prod.fst

/-- Position of an identifier in a task list (length when absent). -/
def taskPos (ts : List (String × List String)) (s : String) : Nat :=
  (taskIds ts).indexOf s

/-- The dependency list of the task with identifier `s` (`[]` when absent). -/
def taskDeps (ts : List (String × List String)) (s : String) : List String :=
  ((ts.find? (fun p => p.1 == s)).map Prod.snd).getD []

/-- Collapse duplicate entries of a list, keeping first occurrences. -/
def collapseFirst (l : List String) : List String :=
  match l with
  | [] => []
  | a :: l => a :: collapseFirst (l.filter (· ≠ a))
termination_by l.length
decreasing_by simpa using Nat.lt_succ_of_le (List.length_filter_le _ _)

/-- A rule with its duplicate `requires` entries collapsed to the first one. -/
def collapseRule (r : Rule) : Rule :=
  { r with requires := collapseFirst r.requires }

/-- The §8 cycle-rejection input: `A requires X; B provides X and requires Y;
C provides Y and requires X`. -/
def c4rules : List Rule := [⟨"A.o", [], ["X"]⟩, ⟨"B.o", ["X"], ["Y"]⟩, ⟨"C.o", ["Y"], ["X"]⟩]

/-- The §8 transitive-contraction input (the clang module-partition example). -/
def m5rules : List Rule :=
  [⟨"Impl.o", [], ["M"]⟩,
   ⟨"M.o", ["M"], ["M:interface_part", "M:impl_part"]⟩,
   ⟨"User.o", [], ["M"]⟩,
   ⟨"impl_part.o", ["M:impl_part"], ["M:interface_part"]⟩,
   ⟨"interface_part.o", ["M:interface_part"], []⟩]

/-- A single rule with no `provides` and no `requires` entries. -/
def lonelyRules : List Rule := [⟨"lonely.o", [], []⟩]

/-- A project rule providing the external module `"std"` while another rule
requires it. -/
def extProvidedRules : List Rule := [⟨"A.o", ["std"], []⟩, ⟨"B.o", [], ["std"]⟩]

/-- A rule requiring a module nobody provides that is not external. -/
def danglingRules : List Rule := [⟨"A.o", [], ["ghost"]⟩]

/-- A one-rule dependency cycle (`P.o` provides and requires `W`). -/
def selfCycleRules : List Rule := [⟨"P.o", ["W"], ["W"]⟩]

/-- The §8 external-leaf input: a rule requiring `"std"`, no provider present. -/
def s8rules : List Rule := [⟨"user.o", [], ["std"]⟩]

/-- A two-rule chain: `b.o` provides `B`, `c.o` requires `B`. -/
def chainRules : List Rule := [⟨"b.o", ["B"], []⟩, ⟨"c.o", [], ["B"]⟩]

/-- `a.o` provides `A`; `b.o` requires `A` and the external `"std"`. -/
def abRules : List Rule := [⟨"a.o", ["A"], []⟩, ⟨"b.o", [], ["A", "std"]⟩]

/-- The task list `resolve chainRules []` returns. -/
def chainTasks : List (String × List String) := [("b.o", []), ("c.o", ["b.o"])]

/-- The task list `resolve abRules []` returns. -/
def abTasks : List (String × List String) := [("a.o", []), ("b.o", ["a.o"])]

/-- The task list `resolve m5rules []` returns. -/
def m5tasks : List (String × List String) :=
  [("interface_part.o", []),
   ("impl_part.o", ["interface_part.o"]),
   ("M.o", ["impl_part.o", "interface_part.o"]),
   ("Impl.o", ["M.o"]),
   ("User.o", ["M.o"])]


/-- Every value set of the dictionary is duplicate-free. -/
def ValsNodup (g : Graph) : Prop := ∀ n, (getD g n).Nodup

/-- The bookkeeping invariant of the two dictionaries: the forward key list is
duplicate-free, and all value sets on both sides are duplicate-free. -/
def GoodSt (st : Graph × Graph) : Prop :=
  (keys st.1).Nodup ∧ ValsNodup st.1 ∧ ValsNodup st.2

/-- Invariant carried through module elimination: forward keys are duplicate-free,
value sets are duplicate-free on both sides, forward and reverse value sets at
module keys hold only file nodes, and reverse values at module keys are forward
keys (every recorded user of a module is itself a graph key). -/
def ElimInv (st : Graph × Graph) : Prop :=
  (keys st.1).Nodup ∧ ValsNodup st.1 ∧ ValsNodup st.2 ∧
    (∀ m, m.isMod = true → ∀ x ∈ getD st.1 m, x.isMod = false) ∧
    (∀ m, m.isMod = true → ∀ x ∈ getD st.2 m, x.isMod = false ∧ x ∈ keys st.1)

/-- The number of decrements the in-degree of `n` has received after the nodes
of `out` have been popped: one per popped node whose reverse set contains `n`. -/
def decCount (R : Graph) (n : Node) (out : List Node) : Nat :=
  out.countP (fun p => decide (n ∈ getD R p))

/-- The loop invariant of the Kahn sort, relative to the file-only graphs
`G`/`R`: the popped order and the queue are duplicate-free and disjoint; every
in-degree entry equals its initial value minus its decrements (entries absent
from `graph.items()` exist exactly when they have been decremented — the
phantom entries a `defaultdict(int)` creates); the dictionary only grows; and
every queued or popped node is an original key whose decrement count had
reached its initial in-degree by the time it was enqueued. -/
structure SortInv (G R : Graph) (q out : List Node) (deg : DegList) : Prop where
  nodupOut : out.Nodup
  nodupQ : q.Nodup
  disj : ∀ n ∈ q, n ∉ out
  lookupEq : ∀ n, degLookup deg n =
    if (degLookup (buildDeg G) n).isSome = true ∨ 0 < decCount R n out then
      some ((degLookup (buildDeg G) n).getD 0 - (decCount R n out : Int))
    else none
  lenLe : (buildDeg G).length ≤ deg.length
  qSpec : ∀ n ∈ q, (degLookup (buildDeg G) n).isSome = true ∧
    (degLookup (buildDeg G) n).getD 0 ≤ (decCount R n out : Int)
  outSpec : ∀ i (h : i < out.length), (degLookup (buildDeg G) (out.get ⟨i, h⟩)).isSome = true ∧
    (degLookup (buildDeg G) (out.get ⟨i, h⟩)).getD 0 ≤
      (decCount R (out.get ⟨i, h⟩) (out.take i) : Int)

/-! ## Lookup lemmas for the dictionary operations -/

theorem keys_nil : keys ([] : Graph) = [] := rfl

theorem keys_cons (k : Node) (v : List Node) (rest : Graph) :
    keys ((k, v) :: rest) = k :: keys rest := rfl

theorem lookupG_cons (k : Node) (v : List Node) (rest : Graph) (n : Node) :
    lookupG ((k, v) :: rest) n = if k = n then some v else lookupG rest n := rfl

theorem mem_keys_iff_lookup (g : Graph) (n : Node) :
    n ∈ keys g ↔ (lookupG g n).isSome = true := by
  induction g with
  | nil => simp [keys, lookupG]
  | cons kv rest ih =>
    obtain ⟨k, v⟩ := kv
    by_cases h : k = n
    · subst h; simp [keys_cons, lookupG_cons]
    · simp [keys_cons, lookupG_cons, h, ih, @eq_comm _ n k]

theorem hasKey_iff (g : Graph) (n : Node) : hasKey g n = true ↔ n ∈ keys g := by
  simp [hasKey, mem_keys_iff_lookup]

theorem lookupG_eq_none (g : Graph) (n : Node) (hn : n ∉ keys g) :
    lookupG g n = none := by
  rcases h : lookupG g n with _ | v
  · rfl
  · exact absurd ((mem_keys_iff_lookup g n).mpr (by simp [h])) hn

theorem lookupG_append_left (g h : Graph) (n : Node) (hn : n ∈ keys g) :
    lookupG (g ++ h) n = lookupG g n := by
  induction g with
  | nil => simp [keys] at hn
  | cons kv rest ih =>
    obtain ⟨k, v⟩ := kv
    by_cases hk : k = n
    · subst hk; simp [lookupG_cons]
    · have : n ∈ keys rest := by
        rcases (List.mem_cons).mp hn with hc | hc
        · exact absurd hc.symm hk
        · exact hc
      simp [lookupG_cons, hk, ih this]

theorem lookupG_append_right (g h : Graph) (n : Node) (hn : n ∉ keys g) :
    lookupG (g ++ h) n = lookupG h n := by
  induction g with
  | nil => simp
  | cons kv rest ih =>
    obtain ⟨k, v⟩ := kv
    have hk : ¬ k = n := fun hc => hn (by simp [keys_cons, hc])
    have : n ∉ keys rest := fun hc => hn (by simp [keys_cons, hc])
    simp [lookupG_cons, hk, ih this]

theorem addVal_cons (k : Node) (v : List Node) (rest : Graph) (a b : Node) :
    addVal ((k, v) :: rest) a b =
      if k = a then (k, if b ∈ v then v else v ++ [b]) :: rest
      else (k, v) :: addVal rest a b := rfl

theorem lookupG_addVal (g : Graph) (a b n : Node) :
    lookupG (addVal g a b) n =
      if n = a then
        some (if b ∈ getD g a then getD g a else getD g a ++ [b])
      else lookupG g n := by
  induction g with
  | nil =>
    by_cases h : n = a
    · subst h; simp [addVal, lookupG, getD]
    · simp [addVal, lookupG_cons, lookupG, getD, h, @eq_comm _ a n]
  | cons kv rest ih =>
    obtain ⟨k, v⟩ := kv
    rw [addVal_cons]
    by_cases hk : k = a
    · subst hk
      by_cases hn : n = k
      · subst hn; simp [lookupG_cons, getD]
      · simp [lookupG_cons, getD, hn, @eq_comm _ k n]
    · by_cases hn : n = k
      · subst hn
        simp [lookupG_cons, hk, @eq_comm _ n a, getD]
      · simp [lookupG_cons, getD, hk, hn, ih, @eq_comm _ k n]

theorem setVal_cons (k : Node) (w : List Node) (rest : Graph) (a : Node) (v : List Node) :
    setVal ((k, w) :: rest) a v =
      if k = a then (k, v) :: rest else (k, w) :: setVal rest a v := rfl

theorem lookupG_setVal (g : Graph) (a : Node) (v : List Node) (n : Node) :
    lookupG (setVal g a v) n = if n = a then some v else lookupG g n := by
  induction g with
  | nil =>
    by_cases h : n = a
    · subst h; simp [setVal, lookupG]
    · simp [setVal, lookupG_cons, lookupG, h, @eq_comm _ a n]
  | cons kv rest ih =>
    obtain ⟨k, w⟩ := kv
    rw [setVal_cons]
    by_cases hk : k = a
    · subst hk
      by_cases hn : n = k
      · subst hn; simp [lookupG_cons]
      · simp [lookupG_cons, hn, @eq_comm _ k n]
    · by_cases hn : n = k
      · subst hn
        simp [lookupG_cons, hk, @eq_comm _ n a]
      · simp [lookupG_cons, hk, hn, ih, @eq_comm _ k n]

theorem lookupG_touch (g : Graph) (a n : Node) :
    lookupG (touch g a) n = if n = a then some (getD g a) else lookupG g n := by
  unfold touch
  by_cases hk : hasKey g a = true
  · have ha : a ∈ keys g := (hasKey_iff g a).mp hk
    obtain ⟨v, hv⟩ := Option.isSome_iff_exists.mp ((mem_keys_iff_lookup g a).mp ha)
    by_cases hn : n = a
    · subst hn; simp [hk, hv, getD]
    · simp [hk, hn]
  · have ha : a ∉ keys g := fun hc => hk ((hasKey_iff g a).mpr hc)
    have ha' : lookupG g a = none := lookupG_eq_none g a ha
    by_cases hn : n = a
    · subst hn
      simp [hk, lookupG_append_right g _ n ha, lookupG_cons, lookupG, getD, ha']
    · by_cases hmem : n ∈ keys g
      · simp [hk, lookupG_append_left g _ n hmem, hn]
      · simp [hk, lookupG_append_right g _ n hmem, lookupG_cons, lookupG, hn,
          lookupG_eq_none g n hmem, @eq_comm _ a n]

theorem dropVal_cons (k : Node) (v : List Node) (rest : Graph) (a b : Node) :
    dropVal ((k, v) :: rest) a b =
      if k = a then (k, v.filter (· ≠ b)) :: rest else (k, v) :: dropVal rest a b := rfl

theorem lookupG_dropVal (g : Graph) (a b n : Node) :
    lookupG (dropVal g a b) n =
      if n = a then some ((getD g a).filter (· ≠ b)) else lookupG g n := by
  induction g with
  | nil =>
    by_cases h : n = a
    · subst h; simp [dropVal, lookupG, getD]
    · simp [dropVal, lookupG_cons, lookupG, getD, h, @eq_comm _ a n]
  | cons kv rest ih =>
    obtain ⟨k, v⟩ := kv
    rw [dropVal_cons]
    by_cases hk : k = a
    · subst hk
      by_cases hn : n = k
      · subst hn; simp [lookupG_cons, getD]
      · simp [lookupG_cons, getD, hn, @eq_comm _ k n]
    · by_cases hn : n = k
      · subst hn
        simp [lookupG_cons, hk, @eq_comm _ n a]
      · simp [lookupG_cons, getD, hk, hn, ih, @eq_comm _ k n]

theorem delKey_cons (k : Node) (v : List Node) (rest : Graph) (a : Node) :
    delKey ((k, v) :: rest) a =
      if k = a then delKey rest a else (k, v) :: delKey rest a := by
  by_cases hk : k = a <;> simp [delKey, List.filter_cons, hk]

theorem lookupG_delKey (g : Graph) (a n : Node) :
    lookupG (delKey g a) n = if n = a then none else lookupG g n := by
  induction g with
  | nil =>
    by_cases h : n = a <;> simp [delKey, lookupG, h]
  | cons kv rest ih =>
    obtain ⟨k, v⟩ := kv
    rw [delKey_cons]
    by_cases hk : k = a
    · subst hk
      by_cases hn : n = k
      · subst hn; simp [ih]
      · simp [lookupG_cons, hn, ih, @eq_comm _ k n]
    · by_cases hn : n = k
      · subst hn
        simp [lookupG_cons, hk, @eq_comm _ n a]
      · simp [lookupG_cons, hk, hn, ih, @eq_comm _ k n]

theorem getD_addVal (g : Graph) (a b n : Node) :
    getD (addVal g a b) n =
      if n = a then (if b ∈ getD g a then getD g a else getD g a ++ [b]) else getD g n := by
  by_cases h : n = a <;> simp [getD, lookupG_addVal, h]

theorem mem_getD_addVal (g : Graph) (a b n x : Node) :
    x ∈ getD (addVal g a b) n ↔ x ∈ getD g n ∨ (n = a ∧ x = b) := by
  rw [getD_addVal]
  by_cases h : n = a
  · subst h
    by_cases hb : b ∈ getD g n
    · simp only [hb, if_true, ite_true, eq_self_iff_true, true_and]
      constructor
      · exact fun hx => Or.inl hx
      · rintro (hx | hx)
        · exact hx
        · subst hx; exact hb
    · simp only [hb, if_false, ite_false, eq_self_iff_true, true_and, List.mem_append,
        List.mem_singleton, ite_true]
  · simp [h]

theorem getD_setVal (g : Graph) (a : Node) (v : List Node) (n : Node) :
    getD (setVal g a v) n = if n = a then v else getD g n := by
  by_cases h : n = a <;> simp [getD, lookupG_setVal, h]

theorem getD_touch (g : Graph) (a n : Node) : getD (touch g a) n = getD g n := by
  by_cases h : n = a
  · subst h; simp [getD, lookupG_touch]
  · simp [getD, lookupG_touch, h]

theorem getD_dropVal (g : Graph) (a b n : Node) :
    getD (dropVal g a b) n = if n = a then (getD g a).filter (· ≠ b) else getD g n := by
  by_cases h : n = a <;> simp [getD, lookupG_dropVal, h]

theorem getD_delKey (g : Graph) (a n : Node) :
    getD (delKey g a) n = if n = a then [] else getD g n := by
  by_cases h : n = a <;> simp [getD, lookupG_delKey, h]

theorem keys_addVal (g : Graph) (a b : Node) :
    keys (addVal g a b) = if a ∈ keys g then keys g else keys g ++ [a] := by
  induction g with
  | nil => simp [addVal, keys]
  | cons kv rest ih =>
    obtain ⟨k, v⟩ := kv
    rw [addVal_cons]
    by_cases hk : k = a
    · subst hk; simp [keys_cons]
    · by_cases hmem : a ∈ keys rest <;>
        simp [keys_cons, hk, hmem, @eq_comm _ a k, ih]

theorem keys_setVal (g : Graph) (a : Node) (v : List Node) :
    keys (setVal g a v) = if a ∈ keys g then keys g else keys g ++ [a] := by
  induction g with
  | nil => simp [setVal, keys]
  | cons kv rest ih =>
    obtain ⟨k, w⟩ := kv
    rw [setVal_cons]
    by_cases hk : k = a
    · subst hk; simp [keys_cons]
    · by_cases hmem : a ∈ keys rest <;>
        simp [keys_cons, hk, hmem, @eq_comm _ a k, ih]

theorem keys_touch (g : Graph) (a : Node) :
    keys (touch g a) = if a ∈ keys g then keys g else keys g ++ [a] := by
  unfold touch
  by_cases hk : a ∈ keys g
  · simp [(hasKey_iff g a).mpr hk, hk]
  · have h1 : ¬ hasKey g a = true := fun hc => hk ((hasKey_iff g a).mp hc)
    rw [if_neg h1, if_neg hk]
    simp [keys]

theorem keys_dropVal (g : Graph) (a b : Node) :
    keys (dropVal g a b) = if a ∈ keys g then keys g else keys g ++ [a] := by
  induction g with
  | nil => simp [dropVal, keys]
  | cons kv rest ih =>
    obtain ⟨k, v⟩ := kv
    rw [dropVal_cons]
    by_cases hk : k = a
    · subst hk; simp [keys_cons]
    · by_cases hmem : a ∈ keys rest <;>
        simp [keys_cons, hk, hmem, @eq_comm _ a k, ih]

theorem keys_delKey (g : Graph) (a : Node) :
    keys (delKey g a) = (keys g).filter (· ≠ a) := by
  induction g with
  | nil => simp [delKey, keys]
  | cons kv rest ih =>
    obtain ⟨k, v⟩ := kv
    rw [delKey_cons]
    by_cases hk : k = a
    · subst hk; simp [keys_cons, List.filter_cons, ih]
    · simp [keys_cons, List.filter_cons, hk, ih]

/-! ## Key-membership and duplicate-freeness preservation -/

theorem mem_keys_addVal (g : Graph) (a b k : Node) :
    k ∈ keys (addVal g a b) ↔ k ∈ keys g ∨ k = a := by
  rw [keys_addVal]
  by_cases h : a ∈ keys g
  · simp only [h, if_true, ite_true]
    constructor
    · exact fun hk => Or.inl hk
    · rintro (hk | hk)
      · exact hk
      · subst hk; exact h
  · simp [h]

theorem mem_keys_setVal (g : Graph) (a : Node) (v : List Node) (k : Node) :
    k ∈ keys (setVal g a v) ↔ k ∈ keys g ∨ k = a := by
  rw [keys_setVal]
  by_cases h : a ∈ keys g
  · simp only [h, if_true, ite_true]
    constructor
    · exact fun hk => Or.inl hk
    · rintro (hk | hk)
      · exact hk
      · subst hk; exact h
  · simp [h]

theorem mem_keys_touch (g : Graph) (a k : Node) :
    k ∈ keys (touch g a) ↔ k ∈ keys g ∨ k = a := by
  rw [keys_touch]
  by_cases h : a ∈ keys g
  · simp only [h, if_true, ite_true]
    constructor
    · exact fun hk => Or.inl hk
    · rintro (hk | hk)
      · exact hk
      · subst hk; exact h
  · simp [h]

theorem mem_keys_dropVal (g : Graph) (a b k : Node) :
    k ∈ keys (dropVal g a b) ↔ k ∈ keys g ∨ k = a := by
  rw [keys_dropVal]
  by_cases h : a ∈ keys g
  · simp only [h, if_true, ite_true]
    constructor
    · exact fun hk => Or.inl hk
    · rintro (hk | hk)
      · exact hk
      · subst hk; exact h
  · simp [h]

theorem mem_keys_delKey (g : Graph) (a k : Node) :
    k ∈ keys (delKey g a) ↔ k ∈ keys g ∧ k ≠ a := by
  rw [keys_delKey]
  simp [List.mem_filter]

theorem keysNodup_addVal (g : Graph) (a b : Node) (h : (keys g).Nodup) :
    (keys (addVal g a b)).Nodup := by
  rw [keys_addVal]
  by_cases hm : a ∈ keys g <;> simp [hm, h, List.nodup_append]

theorem keysNodup_setVal (g : Graph) (a : Node) (v : List Node) (h : (keys g).Nodup) :
    (keys (setVal g a v)).Nodup := by
  rw [keys_setVal]
  by_cases hm : a ∈ keys g <;> simp [hm, h, List.nodup_append]

theorem keysNodup_touch (g : Graph) (a : Node) (h : (keys g).Nodup) :
    (keys (touch g a)).Nodup := by
  rw [keys_touch]
  by_cases hm : a ∈ keys g <;> simp [hm, h, List.nodup_append]

theorem keysNodup_dropVal (g : Graph) (a b : Node) (h : (keys g).Nodup) :
    (keys (dropVal g a b)).Nodup := by
  rw [keys_dropVal]
  by_cases hm : a ∈ keys g <;> simp [hm, h, List.nodup_append]

theorem keysNodup_delKey (g : Graph) (a : Node) (h : (keys g).Nodup) :
    (keys (delKey g a)).Nodup := by
  rw [keys_delKey]
  exact h.filter _

theorem valsNodup_addVal (g : Graph) (a b : Node) (h : ValsNodup g) :
    ValsNodup (addVal g a b) := by
  intro n
  rw [getD_addVal]
  by_cases hn : n = a
  · by_cases hb : b ∈ getD g a <;> simp [hn, hb, h a, List.nodup_append]
  · simp [hn, h n]

theorem valsNodup_setNil (g : Graph) (a : Node) (h : ValsNodup g) :
    ValsNodup (setVal g a []) := by
  intro n
  rw [getD_setVal]
  by_cases hn : n = a <;> simp [hn, h n]

theorem valsNodup_touch (g : Graph) (a : Node) (h : ValsNodup g) :
    ValsNodup (touch g a) := by
  intro n
  rw [getD_touch]
  exact h n

theorem valsNodup_dropVal (g : Graph) (a b : Node) (h : ValsNodup g) :
    ValsNodup (dropVal g a b) := by
  intro n
  rw [getD_dropVal]
  by_cases hn : n = a
  · simp only [hn, if_true, ite_true]
    exact (h a).filter _
  · simp [hn, h n]

theorem valsNodup_delKey (g : Graph) (a : Node) (h : ValsNodup g) :
    ValsNodup (delKey g a) := by
  intro n
  rw [getD_delKey]
  by_cases hn : n = a <;> simp [hn, h n]

theorem foldl_induction {α β : Type} (f : β → α → β) (P : β → Prop) (l : List α) (init : β)
    (h0 : P init) (hstep : ∀ b a, a ∈ l → P b → P (f b a)) : P (l.foldl f init) := by
  induction l generalizing init with
  | nil => exact h0
  | cons a rest ih =>
    exact ih (f init a) (hstep init a (by simp) h0)
      (fun b x hx hb => hstep b x (by simp [hx]) hb)

/-! ## Characterization of the built graphs -/

theorem mem_provideStep_g (po : String) (prov req : List String) (st : Graph × Graph)
    (n x : Node) :
    x ∈ getD (provideStep st ⟨po, prov, req⟩).1 n ↔
      x ∈ getD st.1 n ∨ ∃ m ∈ prov, n = Node.mod m ∧ x = Node.file po := by
  induction prov generalizing st with
  | nil => simp [provideStep]
  | cons m rest ih =>
    have hstep : provideStep st ⟨po, m :: rest, req⟩ =
        provideStep (addVal (touch st.1 (Node.file po)) (Node.mod m) (Node.file po),
          addVal st.2 (Node.file po) (Node.mod m)) ⟨po, rest, req⟩ := rfl
    rw [hstep, ih]
    simp only [mem_getD_addVal, getD_touch, List.mem_cons]
    constructor
    · rintro ((hx | ⟨hn, hx⟩) | ⟨m', hm', hn, hx⟩)
      · exact Or.inl hx
      · exact Or.inr ⟨m, Or.inl rfl, hn, hx⟩
      · exact Or.inr ⟨m', Or.inr hm', hn, hx⟩
    · rintro (hx | ⟨m', hm' | hm', hn, hx⟩)
      · exact Or.inl (Or.inl hx)
      · subst hm'; exact Or.inl (Or.inr ⟨hn, hx⟩)
      · exact Or.inr ⟨m', hm', hn, hx⟩

theorem mem_provideStep_rg (po : String) (prov req : List String) (st : Graph × Graph)
    (n x : Node) :
    x ∈ getD (provideStep st ⟨po, prov, req⟩).2 n ↔
      x ∈ getD st.2 n ∨ ∃ m ∈ prov, n = Node.file po ∧ x = Node.mod m := by
  induction prov generalizing st with
  | nil => simp [provideStep]
  | cons m rest ih =>
    have hstep : provideStep st ⟨po, m :: rest, req⟩ =
        provideStep (addVal (touch st.1 (Node.file po)) (Node.mod m) (Node.file po),
          addVal st.2 (Node.file po) (Node.mod m)) ⟨po, rest, req⟩ := rfl
    rw [hstep, ih]
    simp only [mem_getD_addVal, List.mem_cons]
    constructor
    · rintro ((hx | ⟨hn, hx⟩) | ⟨m', hm', hn, hx⟩)
      · exact Or.inl hx
      · exact Or.inr ⟨m, Or.inl rfl, hn, hx⟩
      · exact Or.inr ⟨m', Or.inr hm', hn, hx⟩
    · rintro (hx | ⟨m', hm' | hm', hn, hx⟩)
      · exact Or.inl (Or.inl hx)
      · subst hm'; exact Or.inl (Or.inr ⟨hn, hx⟩)
      · exact Or.inr ⟨m', hm', hn, hx⟩

theorem mem_keys_provideStep_g (po : String) (prov req : List String) (st : Graph × Graph)
    (k : Node) :
    k ∈ keys (provideStep st ⟨po, prov, req⟩).1 ↔
      k ∈ keys st.1 ∨ (prov ≠ [] ∧ k = Node.file po) ∨ ∃ m ∈ prov, k = Node.mod m := by
  induction prov generalizing st with
  | nil => simp [provideStep]
  | cons m rest ih =>
    have hstep : provideStep st ⟨po, m :: rest, req⟩ =
        provideStep (addVal (touch st.1 (Node.file po)) (Node.mod m) (Node.file po),
          addVal st.2 (Node.file po) (Node.mod m)) ⟨po, rest, req⟩ := rfl
    rw [hstep, ih]
    simp only [mem_keys_addVal, mem_keys_touch, List.mem_cons, ne_eq,
      List.cons_ne_nil, not_false_iff, true_and]
    constructor
    · rintro (((hk | hk) | hk) | hk | ⟨m', hm', hk⟩)
      · exact Or.inl hk
      · exact Or.inr (Or.inl hk)
      · exact Or.inr (Or.inr ⟨m, Or.inl rfl, hk⟩)
      · by_cases hrest : rest = []
        · subst hrest; simp at hk
        · exact Or.inr (Or.inl hk.2)
      · exact Or.inr (Or.inr ⟨m', Or.inr hm', hk⟩)
    · rintro (hk | hk | ⟨m', hm' | hm', hk⟩)
      · exact Or.inl (Or.inl (Or.inl hk))
      · exact Or.inl (Or.inl (Or.inr hk))
      · subst hm'; exact Or.inl (Or.inr hk)
      · exact Or.inr (Or.inr ⟨m', hm', hk⟩)

theorem mem_reqFold_g_mod (ext : List String) (po : String) (l : List String)
    (st : Graph × Graph) (m : String) (x : Node) :
    x ∈ getD (l.foldl (requireOne ext (Node.file po)) st).1 (Node.mod m) ↔
      ¬((m ∈ stdModules ∨ m ∈ ext) ∧ m ∈ l) ∧ x ∈ getD st.1 (Node.mod m) := by
  induction l generalizing st with
  | nil => simp
  | cons mh rest ih =>
    rw [List.foldl_cons, ih]
    by_cases h1 : mh ∈ stdModules <;> by_cases h2 : mh ∈ ext <;> by_cases hm : m = mh <;>
      simp [requireOne, mem_getD_addVal, getD_setVal, h1, h2, hm, List.mem_cons]

theorem mem_reqFold_g_file (ext : List String) (po : String) (l : List String)
    (st : Graph × Graph) (s : String) (x : Node) :
    x ∈ getD (l.foldl (requireOne ext (Node.file po)) st).1 (Node.file s) ↔
      x ∈ getD st.1 (Node.file s) ∨ (s = po ∧ ∃ m ∈ l, x = Node.mod m) := by
  induction l generalizing st with
  | nil => simp
  | cons mh rest ih =>
    rw [List.foldl_cons, ih]
    by_cases h1 : mh ∈ stdModules <;> by_cases h2 : mh ∈ ext <;> by_cases hs : s = po <;>
      simp [requireOne, mem_getD_addVal, getD_setVal, h1, h2, hs, List.mem_cons] <;>
      tauto

theorem mem_reqFold_rg (ext : List String) (po : String) (l : List String)
    (st : Graph × Graph) (n x : Node) :
    x ∈ getD (l.foldl (requireOne ext (Node.file po)) st).2 n ↔
      x ∈ getD st.2 n ∨ ∃ m ∈ l, n = Node.mod m ∧ x = Node.file po := by
  induction l generalizing st with
  | nil => simp
  | cons mh rest ih =>
    rw [List.foldl_cons, ih]
    simp only [requireOne, mem_getD_addVal, List.mem_cons]
    constructor
    · rintro ((hx | ⟨hn, hx⟩) | ⟨m', hm', hn, hx⟩)
      · exact Or.inl hx
      · exact Or.inr ⟨mh, Or.inl rfl, hn, hx⟩
      · exact Or.inr ⟨m', Or.inr hm', hn, hx⟩
    · rintro (hx | ⟨m', hm' | hm', hn, hx⟩)
      · exact Or.inl (Or.inl hx)
      · subst hm'; exact Or.inl (Or.inr ⟨hn, hx⟩)
      · exact Or.inr ⟨m', hm', hn, hx⟩

theorem mem_keys_requireOne_g (ext : List String) (po : String) (st : Graph × Graph)
    (mh : String) (k : Node) :
    k ∈ keys (requireOne ext (Node.file po) st mh).1 ↔
      k ∈ keys st.1 ∨ k = Node.file po ∨
        ((mh ∈ stdModules ∨ mh ∈ ext) ∧ k = Node.mod mh) := by
  unfold requireOne
  by_cases h1 : mh ∈ stdModules <;> by_cases h2 : mh ∈ ext <;>
    simp [h1, h2, mem_keys_addVal, mem_keys_setVal] <;> tauto

theorem mem_keys_reqFold_g (ext : List String) (po : String) (l : List String)
    (st : Graph × Graph) (k : Node) :
    k ∈ keys (l.foldl (requireOne ext (Node.file po)) st).1 ↔
      k ∈ keys st.1 ∨ (l ≠ [] ∧ k = Node.file po) ∨
        ∃ m ∈ l, (m ∈ stdModules ∨ m ∈ ext) ∧ k = Node.mod m := by
  induction l generalizing st with
  | nil => simp
  | cons mh rest ih =>
    rw [List.foldl_cons, ih, mem_keys_requireOne_g]
    simp only [List.mem_cons, ne_eq, List.cons_ne_nil, not_false_iff, true_and]
    constructor
    · rintro ((hk | hk | hk) | hk | ⟨m', hm', hk⟩)
      · exact Or.inl hk
      · exact Or.inr (Or.inl hk)
      · exact Or.inr (Or.inr ⟨mh, Or.inl rfl, hk⟩)
      · exact Or.inr (Or.inl hk.2)
      · exact Or.inr (Or.inr ⟨m', Or.inr hm', hk⟩)
    · rintro (hk | hk | ⟨m', hm' | hm', hk⟩)
      · exact Or.inl (Or.inl hk)
      · exact Or.inl (Or.inr (Or.inl hk))
      · subst hm'; exact Or.inl (Or.inr (Or.inr hk))
      · exact Or.inr (Or.inr ⟨m', hm', hk⟩)

theorem mem_provFold_g (rules : List Rule) (st : Graph × Graph) (n x : Node) :
    x ∈ getD (rules.foldl provideStep st).1 n ↔
      x ∈ getD st.1 n ∨
        ∃ r ∈ rules, ∃ m ∈ r.provides, n = Node.mod m ∧ x = Node.file r.primaryOutput := by
  induction rules generalizing st with
  | nil => simp
  | cons r rest ih =>
    obtain ⟨po, prov, req⟩ := r
    rw [List.foldl_cons, ih]
    simp only [List.mem_cons]
    rw [mem_provideStep_g]
    constructor
    · rintro ((hx | ⟨m, hm, hx⟩) | ⟨r', hr', hx⟩)
      · exact Or.inl hx
      · exact Or.inr ⟨⟨po, prov, req⟩, Or.inl rfl, m, hm, hx⟩
      · exact Or.inr ⟨r', Or.inr hr', hx⟩
    · rintro (hx | ⟨r', hr' | hr', hx⟩)
      · exact Or.inl (Or.inl hx)
      · subst hr'; exact Or.inl (Or.inr hx)
      · exact Or.inr ⟨r', hr', hx⟩

theorem mem_provFold_rg (rules : List Rule) (st : Graph × Graph) (n x : Node) :
    x ∈ getD (rules.foldl provideStep st).2 n ↔
      x ∈ getD st.2 n ∨
        ∃ r ∈ rules, ∃ m ∈ r.provides, n = Node.file r.primaryOutput ∧ x = Node.mod m := by
  induction rules generalizing st with
  | nil => simp
  | cons r rest ih =>
    obtain ⟨po, prov, req⟩ := r
    rw [List.foldl_cons, ih]
    simp only [List.mem_cons]
    rw [mem_provideStep_rg]
    constructor
    · rintro ((hx | ⟨m, hm, hx⟩) | ⟨r', hr', hx⟩)
      · exact Or.inl hx
      · exact Or.inr ⟨⟨po, prov, req⟩, Or.inl rfl, m, hm, hx⟩
      · exact Or.inr ⟨r', Or.inr hr', hx⟩
    · rintro (hx | ⟨r', hr' | hr', hx⟩)
      · exact Or.inl (Or.inl hx)
      · subst hr'; exact Or.inl (Or.inr hx)
      · exact Or.inr ⟨r', hr', hx⟩

theorem mem_keys_provFold_g (rules : List Rule) (st : Graph × Graph) (k : Node) :
    k ∈ keys (rules.foldl provideStep st).1 ↔
      k ∈ keys st.1 ∨
        (∃ r ∈ rules, r.provides ≠ [] ∧ k = Node.file r.primaryOutput) ∨
        ∃ r ∈ rules, ∃ m ∈ r.provides, k = Node.mod m := by
  induction rules generalizing st with
  | nil => simp
  | cons r rest ih =>
    obtain ⟨po, prov, req⟩ := r
    rw [List.foldl_cons, ih]
    simp only [List.mem_cons]
    rw [mem_keys_provideStep_g]
    constructor
    · rintro ((hk | hk | hk) | hk | hk)
      · exact Or.inl hk
      · exact Or.inr (Or.inl ⟨⟨po, prov, req⟩, Or.inl rfl, hk⟩)
      · obtain ⟨m, hm, hk⟩ := hk
        exact Or.inr (Or.inr ⟨⟨po, prov, req⟩, Or.inl rfl, m, hm, hk⟩)
      · obtain ⟨r', hr', hk⟩ := hk
        exact Or.inr (Or.inl ⟨r', Or.inr hr', hk⟩)
      · obtain ⟨r', hr', hk⟩ := hk
        exact Or.inr (Or.inr ⟨r', Or.inr hr', hk⟩)
    · rintro (hk | ⟨r', hr' | hr', hk⟩ | ⟨r', hr' | hr', hk⟩)
      · exact Or.inl (Or.inl hk)
      · subst hr'; exact Or.inl (Or.inr (Or.inl hk))
      · exact Or.inr (Or.inl ⟨r', hr', hk⟩)
      · subst hr'; exact Or.inl (Or.inr (Or.inr hk))
      · exact Or.inr (Or.inr ⟨r', hr', hk⟩)

theorem mem_reqRules_g_mod (ext : List String) (rules : List Rule) (st : Graph × Graph)
    (m : String) (x : Node) :
    x ∈ getD (rules.foldl (requireStep ext) st).1 (Node.mod m) ↔
      ¬((m ∈ stdModules ∨ m ∈ ext) ∧ ∃ r ∈ rules, m ∈ r.requires) ∧
        x ∈ getD st.1 (Node.mod m) := by
  induction rules generalizing st with
  | nil => simp
  | cons r rest ih =>
    obtain ⟨po, prov, req⟩ := r
    rw [List.foldl_cons, ih]
    have hone : requireStep ext st ⟨po, prov, req⟩ =
        req.foldl (requireOne ext (Node.file po)) st := rfl
    rw [hone, mem_reqFold_g_mod]
    simp only [List.mem_cons]
    constructor
    · rintro ⟨hnot1, hnot2, hx⟩
      refine ⟨?_, hx⟩
      rintro ⟨hE, r', hr' | hr', hm⟩
      · subst hr'; exact hnot2 ⟨hE, hm⟩
      · exact hnot1 ⟨hE, r', hr', hm⟩
    · rintro ⟨hnot, hx⟩
      refine ⟨?_, ?_, hx⟩
      · rintro ⟨hE, r', hr', hm⟩
        exact hnot ⟨hE, r', Or.inr hr', hm⟩
      · rintro ⟨hE, hm⟩
        exact hnot ⟨hE, ⟨po, prov, req⟩, Or.inl rfl, hm⟩

theorem mem_reqRules_g_file (ext : List String) (rules : List Rule) (st : Graph × Graph)
    (s : String) (x : Node) :
    x ∈ getD (rules.foldl (requireStep ext) st).1 (Node.file s) ↔
      x ∈ getD st.1 (Node.file s) ∨
        ∃ r ∈ rules, s = r.primaryOutput ∧ ∃ m ∈ r.requires, x = Node.mod m := by
  induction rules generalizing st with
  | nil => simp
  | cons r rest ih =>
    obtain ⟨po, prov, req⟩ := r
    rw [List.foldl_cons, ih]
    have hone : requireStep ext st ⟨po, prov, req⟩ =
        req.foldl (requireOne ext (Node.file po)) st := rfl
    rw [hone, mem_reqFold_g_file]
    simp only [List.mem_cons]
    constructor
    · rintro ((hx | hx) | ⟨r', hr', hx⟩)
      · exact Or.inl hx
      · exact Or.inr ⟨⟨po, prov, req⟩, Or.inl rfl, hx⟩
      · exact Or.inr ⟨r', Or.inr hr', hx⟩
    · rintro (hx | ⟨r', hr' | hr', hx⟩)
      · exact Or.inl (Or.inl hx)
      · subst hr'; exact Or.inl (Or.inr hx)
      · exact Or.inr ⟨r', hr', hx⟩

theorem mem_reqRules_rg (ext : List String) (rules : List Rule) (st : Graph × Graph)
    (n x : Node) :
    x ∈ getD (rules.foldl (requireStep ext) st).2 n ↔
      x ∈ getD st.2 n ∨
        ∃ r ∈ rules, ∃ m ∈ r.requires, n = Node.mod m ∧ x = Node.file r.primaryOutput := by
  induction rules generalizing st with
  | nil => simp
  | cons r rest ih =>
    obtain ⟨po, prov, req⟩ := r
    rw [List.foldl_cons, ih]
    have hone : requireStep ext st ⟨po, prov, req⟩ =
        req.foldl (requireOne ext (Node.file po)) st := rfl
    rw [hone, mem_reqFold_rg]
    simp only [List.mem_cons]
    constructor
    · rintro ((hx | ⟨m, hm, hx⟩) | ⟨r', hr', hx⟩)
      · exact Or.inl hx
      · exact Or.inr ⟨⟨po, prov, req⟩, Or.inl rfl, m, hm, hx⟩
      · exact Or.inr ⟨r', Or.inr hr', hx⟩
    · rintro (hx | ⟨r', hr' | hr', hx⟩)
      · exact Or.inl (Or.inl hx)
      · subst hr'; exact Or.inl (Or.inr hx)
      · exact Or.inr ⟨r', hr', hx⟩

theorem mem_keys_reqRules_g (ext : List String) (rules : List Rule) (st : Graph × Graph)
    (k : Node) :
    k ∈ keys (rules.foldl (requireStep ext) st).1 ↔
      k ∈ keys st.1 ∨
        (∃ r ∈ rules, r.requires ≠ [] ∧ k = Node.file r.primaryOutput) ∨
        ∃ r ∈ rules, ∃ m ∈ r.requires, (m ∈ stdModules ∨ m ∈ ext) ∧ k = Node.mod m := by
  induction rules generalizing st with
  | nil => simp
  | cons r rest ih =>
    obtain ⟨po, prov, req⟩ := r
    rw [List.foldl_cons, ih]
    have hone : requireStep ext st ⟨po, prov, req⟩ =
        req.foldl (requireOne ext (Node.file po)) st := rfl
    rw [hone, mem_keys_reqFold_g]
    simp only [List.mem_cons]
    constructor
    · rintro ((hk | hk | ⟨m, hm, hk⟩) | hk | hk)
      · exact Or.inl hk
      · exact Or.inr (Or.inl ⟨⟨po, prov, req⟩, Or.inl rfl, hk⟩)
      · exact Or.inr (Or.inr ⟨⟨po, prov, req⟩, Or.inl rfl, m, hm, hk⟩)
      · obtain ⟨r', hr', hk⟩ := hk
        exact Or.inr (Or.inl ⟨r', Or.inr hr', hk⟩)
      · obtain ⟨r', hr', hk⟩ := hk
        exact Or.inr (Or.inr ⟨r', Or.inr hr', hk⟩)
    · rintro (hk | ⟨r', hr' | hr', hk⟩ | ⟨r', hr' | hr', hk⟩)
      · exact Or.inl (Or.inl hk)
      · subst hr'; exact Or.inl (Or.inr (Or.inl hk))
      · exact Or.inr (Or.inl ⟨r', hr', hk⟩)
      · subst hr'; exact Or.inl (Or.inr (Or.inr hk))
      · exact Or.inr (Or.inr ⟨r', hr', hk⟩)

theorem lookupG_nil (n : Node) : lookupG [] n = none := rfl

theorem getD_nil (n : Node) : getD [] n = [] := rfl

theorem file_ne_mod (s t : String) : Node.file s ≠ Node.mod t := fun h => Node.noConfusion h

theorem mod_ne_file (s t : String) : Node.mod s ≠ Node.file t := fun h => Node.noConfusion h

theorem mem_build_g_mod (ext : List String) (rules : List Rule) (m : String) (x : Node) :
    x ∈ getD (buildGraphs ext rules).1 (Node.mod m) ↔
      ¬((m ∈ stdModules ∨ m ∈ ext) ∧ ∃ r ∈ rules, m ∈ r.requires) ∧
        ∃ r ∈ rules, m ∈ r.provides ∧ x = Node.file r.primaryOutput := by
  unfold buildGraphs
  rw [mem_reqRules_g_mod, mem_provFold_g]
  simp only [getD_nil, List.not_mem_nil, false_or, Node.mod.injEq]
  apply and_congr_right
  intro
  constructor
  · rintro ⟨r, hr, m', hm', rfl, hx⟩
    exact ⟨r, hr, hm', hx⟩
  · rintro ⟨r, hr, hm, hx⟩
    exact ⟨r, hr, m, hm, rfl, hx⟩

theorem mem_build_g_file (ext : List String) (rules : List Rule) (s : String) (x : Node) :
    x ∈ getD (buildGraphs ext rules).1 (Node.file s) ↔
      ∃ r ∈ rules, s = r.primaryOutput ∧ ∃ m ∈ r.requires, x = Node.mod m := by
  unfold buildGraphs
  rw [mem_reqRules_g_file, mem_provFold_g]
  simp [getD_nil, file_ne_mod]

theorem mem_build_rg_mod (ext : List String) (rules : List Rule) (m : String) (x : Node) :
    x ∈ getD (buildGraphs ext rules).2 (Node.mod m) ↔
      ∃ r ∈ rules, m ∈ r.requires ∧ x = Node.file r.primaryOutput := by
  unfold buildGraphs
  rw [mem_reqRules_rg, mem_provFold_rg]
  constructor
  · rintro ((hx | ⟨r, hr, m', hm', heq, hx⟩) | ⟨r, hr, m', hm', heq, hx⟩)
    · exact absurd hx (List.not_mem_nil x)
    · exact absurd heq (mod_ne_file _ _)
    · cases Node.mod.inj heq
      exact ⟨r, hr, hm', hx⟩
  · rintro ⟨r, hr, hm, hx⟩
    exact Or.inr ⟨r, hr, m, hm, rfl, hx⟩

theorem mem_build_rg_file (ext : List String) (rules : List Rule) (s : String) (x : Node) :
    x ∈ getD (buildGraphs ext rules).2 (Node.file s) ↔
      ∃ r ∈ rules, s = r.primaryOutput ∧ ∃ m ∈ r.provides, x = Node.mod m := by
  unfold buildGraphs
  rw [mem_reqRules_rg, mem_provFold_rg]
  constructor
  · rintro ((hx | ⟨r, hr, m', hm', heq, hx⟩) | ⟨r, hr, m', hm', heq, hx⟩)
    · exact absurd hx (List.not_mem_nil x)
    · cases Node.file.inj heq
      exact ⟨r, hr, rfl, m', hm', hx⟩
    · exact absurd heq (file_ne_mod _ _)
  · rintro ⟨r, hr, hs, m', hm', hx⟩
    exact Or.inl (Or.inr ⟨r, hr, m', hm', by rw [hs], hx⟩)

theorem mem_keys_build_g (ext : List String) (rules : List Rule) (k : Node) :
    k ∈ keys (buildGraphs ext rules).1 ↔
      (∃ r ∈ rules, r.provides ≠ [] ∧ k = Node.file r.primaryOutput) ∨
      (∃ r ∈ rules, ∃ m ∈ r.provides, k = Node.mod m) ∨
      (∃ r ∈ rules, r.requires ≠ [] ∧ k = Node.file r.primaryOutput) ∨
      (∃ r ∈ rules, ∃ m ∈ r.requires, (m ∈ stdModules ∨ m ∈ ext) ∧ k = Node.mod m) := by
  unfold buildGraphs
  rw [mem_keys_reqRules_g, mem_keys_provFold_g]
  constructor
  · rintro ((hk | hk | hk) | hk | hk)
    · exact absurd hk (List.not_mem_nil k)
    · exact Or.inl hk
    · exact Or.inr (Or.inl hk)
    · exact Or.inr (Or.inr (Or.inl hk))
    · exact Or.inr (Or.inr (Or.inr hk))
  · rintro (hk | hk | hk | hk)
    · exact Or.inl (Or.inr (Or.inl hk))
    · exact Or.inl (Or.inr (Or.inr hk))
    · exact Or.inr (Or.inl hk)
    · exact Or.inr (Or.inr hk)

theorem goodSt_provideStep (st : Graph × Graph) (r : Rule) (h : GoodSt st) :
    GoodSt (provideStep st r) := by
  obtain ⟨po, prov, req⟩ := r
  show GoodSt (prov.foldl _ st)
  refine foldl_induction _ GoodSt prov st h ?_
  rintro ⟨g, rg⟩ m _ ⟨h1, h2, h3⟩
  exact ⟨keysNodup_addVal _ _ _ (keysNodup_touch _ _ h1),
    valsNodup_addVal _ _ _ (valsNodup_touch _ _ h2),
    valsNodup_addVal _ _ _ h3⟩

theorem goodSt_requireOne (ext : List String) (fp : Node) (st : Graph × Graph) (m : String)
    (h : GoodSt st) : GoodSt (requireOne ext fp st m) := by
  obtain ⟨h1, h2, h3⟩ := h
  unfold requireOne
  by_cases hs : m ∈ stdModules <;> by_cases he : m ∈ ext <;> simp only [hs, he, if_true, if_false, ite_true, ite_false] <;>
    exact ⟨keysNodup_addVal _ _ _ (by first
        | exact keysNodup_setVal _ _ _ h1
        | exact h1),
      valsNodup_addVal _ _ _ (by first
        | exact valsNodup_setNil _ _ h2
        | exact h2),
      valsNodup_addVal _ _ _ h3⟩

theorem goodSt_requireStep (ext : List String) (st : Graph × Graph) (r : Rule)
    (h : GoodSt st) : GoodSt (requireStep ext st r) := by
  obtain ⟨po, prov, req⟩ := r
  show GoodSt (req.foldl _ st)
  refine foldl_induction _ GoodSt req st h ?_
  intro st' m _ h'
  exact goodSt_requireOne ext _ st' m h'

theorem goodSt_build (ext : List String) (rules : List Rule) :
    GoodSt (buildGraphs ext rules) := by
  unfold buildGraphs
  refine foldl_induction _ GoodSt rules _ ?_ ?_
  · refine foldl_induction _ GoodSt rules _ ?_ ?_
    · exact ⟨List.nodup_nil, fun n => by simp [getD_nil], fun n => by simp [getD_nil]⟩
    · intro st r _ h; exact goodSt_provideStep st r h
  · intro st r _ h; exact goodSt_requireStep ext st r h

/-! ## Characterization of module elimination -/

theorem mem_elimProvFold_g (ps : List Node) (u : Node) (st : Graph × Graph) (n x : Node) :
    x ∈ getD (ps.foldl (fun st p => (addVal st.1 u p, addVal st.2 p u)) st).1 n ↔
      x ∈ getD st.1 n ∨ (n = u ∧ x ∈ ps) := by
  induction ps generalizing st with
  | nil => simp
  | cons p rest ih =>
    rw [List.foldl_cons, ih]
    simp only [mem_getD_addVal, List.mem_cons]
    constructor
    · rintro ((hx | ⟨hn, hx⟩) | ⟨hn, hx⟩)
      · exact Or.inl hx
      · exact Or.inr ⟨hn, Or.inl hx⟩
      · exact Or.inr ⟨hn, Or.inr hx⟩
    · rintro (hx | ⟨hn, hx | hx⟩)
      · exact Or.inl (Or.inl hx)
      · exact Or.inl (Or.inr ⟨hn, hx⟩)
      · exact Or.inr ⟨hn, hx⟩

theorem mem_elimProvFold_rg (ps : List Node) (u : Node) (st : Graph × Graph) (n x : Node) :
    x ∈ getD (ps.foldl (fun st p => (addVal st.1 u p, addVal st.2 p u)) st).2 n ↔
      x ∈ getD st.2 n ∨ (x = u ∧ n ∈ ps) := by
  induction ps generalizing st with
  | nil => simp
  | cons p rest ih =>
    rw [List.foldl_cons, ih]
    simp only [mem_getD_addVal, List.mem_cons]
    constructor
    · rintro ((hx | ⟨hn, hx⟩) | ⟨hn, hx⟩)
      · exact Or.inl hx
      · exact Or.inr ⟨hx, Or.inl hn⟩
      · exact Or.inr ⟨hn, Or.inr hx⟩
    · rintro (hx | ⟨hx, hn | hn⟩)
      · exact Or.inl (Or.inl hx)
      · exact Or.inl (Or.inr ⟨hn, hx⟩)
      · exact Or.inr ⟨hx, hn⟩

theorem mem_elimUserFold_g (users ps : List Node) (m : Node) (st : Graph × Graph)
    (n x : Node) :
    x ∈ getD (users.foldl
        (fun st u =>
          let st3 := ps.foldl (fun st p => (addVal st.1 u p, addVal st.2 p u)) st
          (dropVal st3.1 u m, st3.2)) st).1 n ↔
      (n ∈ users ∧ (x ∈ getD st.1 n ∨ x ∈ ps) ∧ ¬ x = m) ∨
        (n ∉ users ∧ x ∈ getD st.1 n) := by
  induction users generalizing st with
  | nil => simp
  | cons u rest ih =>
    rw [List.foldl_cons, ih]
    have hmid : ∀ y k, y ∈ getD (dropVal
        (ps.foldl (fun st p => (addVal st.1 u p, addVal st.2 p u)) st).1 u m) k ↔
        (k = u ∧ (y ∈ getD st.1 k ∨ y ∈ ps) ∧ ¬ y = m) ∨ (¬ k = u ∧ y ∈ getD st.1 k) := by
      intro y k
      rw [getD_dropVal]
      have hp1 := mem_elimProvFold_g ps u st u y
      have hp2 := mem_elimProvFold_g ps u st k y
      by_cases hk : k = u
      · rw [if_pos hk]
        simp only [List.mem_filter, decide_eq_true_eq, ne_eq]
        constructor
        · rintro ⟨hy, hym⟩
          rcases hp1.mp hy with hy' | ⟨-, hy'⟩
          · exact Or.inl ⟨hk, Or.inl (hk ▸ hy'), hym⟩
          · exact Or.inl ⟨hk, Or.inr hy', hym⟩
        · rintro (⟨hk', hy, hym⟩ | ⟨hk', -⟩)
          · refine ⟨hp1.mpr ?_, hym⟩
            rcases hy with hy | hy
            · exact Or.inl (hk' ▸ hy)
            · exact Or.inr ⟨rfl, hy⟩
          · exact absurd hk hk'
      · rw [if_neg hk]
        rw [hp2]
        constructor
        · rintro (hy | ⟨hk', hy⟩)
          · exact Or.inr ⟨hk, hy⟩
          · exact absurd hk' hk
        · rintro (⟨hk', -⟩ | ⟨-, hy⟩)
          · exact absurd hk' hk
          · exact Or.inl hy
    simp only [List.mem_cons]
    constructor
    · rintro (⟨hn, hx, hxm⟩ | ⟨hn, hx⟩)
      · rcases hx with hx | hx
        · replace hx := (hmid x n).mp hx
          rcases hx with ⟨hku, hx, _⟩ | ⟨hku, hx⟩
          · exact Or.inl ⟨Or.inl hku, hx, hxm⟩
          · exact Or.inl ⟨Or.inr hn, ⟨Or.inl hx, hxm⟩⟩
        · exact Or.inl ⟨Or.inr hn, Or.inr hx, hxm⟩
      · replace hx := (hmid x n).mp hx
        rcases hx with ⟨hku, hx, hxm⟩ | ⟨hku, hx⟩
        · exact Or.inl ⟨Or.inl hku, hx, hxm⟩
        · exact Or.inr ⟨fun hc => by rcases hc with hc | hc; exact hku hc; exact hn hc, hx⟩
    · rintro (⟨hn | hn, hx, hxm⟩ | ⟨hn, hx⟩)
      · by_cases hr : n ∈ rest
        · refine Or.inl ⟨hr, ?_, hxm⟩
          rcases hx with hx | hx
          · exact Or.inl ((hmid x n).mpr (Or.inl ⟨hn, Or.inl hx, hxm⟩))
          · exact Or.inr hx
        · refine Or.inr ⟨hr, ?_⟩
          exact (hmid x n).mpr (Or.inl ⟨hn, hx, hxm⟩)
      · refine Or.inl ⟨hn, ?_, hxm⟩
        rcases hx with hx | hx
        · by_cases hku : n = u
          · exact Or.inl ((hmid x n).mpr (Or.inl ⟨hku, Or.inl hx, hxm⟩))
          · exact Or.inl ((hmid x n).mpr (Or.inr ⟨hku, hx⟩))
        · exact Or.inr hx
      · have hnr : n ∉ rest := fun hc => hn (Or.inr hc)
        have hnu : ¬ n = u := fun hc => hn (Or.inl hc)
        exact Or.inr ⟨hnr, (hmid x n).mpr (Or.inr ⟨hnu, hx⟩)⟩

theorem mem_elimUserFold_rg (users ps : List Node) (m : Node) (st : Graph × Graph)
    (n x : Node) :
    x ∈ getD (users.foldl
        (fun st u =>
          let st3 := ps.foldl (fun st p => (addVal st.1 u p, addVal st.2 p u)) st
          (dropVal st3.1 u m, st3.2)) st).2 n ↔
      x ∈ getD st.2 n ∨ (x ∈ users ∧ n ∈ ps) := by
  induction users generalizing st with
  | nil => simp
  | cons u rest ih =>
    rw [List.foldl_cons, ih]
    show (x ∈ getD (ps.foldl (fun st p => (addVal st.1 u p, addVal st.2 p u)) st).2 n ∨ _) ↔ _
    rw [mem_elimProvFold_rg]
    simp only [List.mem_cons]
    constructor
    · rintro ((hx | ⟨hx, hn⟩) | ⟨hx, hn⟩)
      · exact Or.inl hx
      · exact Or.inr ⟨Or.inl hx, hn⟩
      · exact Or.inr ⟨Or.inr hx, hn⟩
    · rintro (hx | ⟨hx | hx, hn⟩)
      · exact Or.inl (Or.inl hx)
      · exact Or.inl (Or.inr ⟨hx, hn⟩)
      · exact Or.inr ⟨hx, hn⟩

theorem mem_elimDropFold (ps : List Node) (m : Node) (rg : Graph) (n x : Node) :
    x ∈ getD (ps.foldl (fun rg p => dropVal rg p m) rg) n ↔
      x ∈ getD rg n ∧ ¬(n ∈ ps ∧ x = m) := by
  induction ps generalizing rg with
  | nil => simp
  | cons p rest ih =>
    rw [List.foldl_cons, ih, getD_dropVal]
    by_cases hn : n = p
    · subst hn
      simp only [if_pos rfl, List.mem_filter, List.mem_cons]
      simp [decide_eq_true_eq]
      tauto
    · simp only [if_neg hn, List.mem_cons]
      constructor
      · rintro ⟨hx, hnot⟩
        exact ⟨hx, by tauto⟩
      · rintro ⟨hx, hnot⟩
        exact ⟨hx, by tauto⟩

theorem mem_elimOne_g (st : Graph × Graph) (m n x : Node) :
    x ∈ getD (elimOne st m).1 n ↔
      ¬ n = m ∧
        ((n ∈ getD st.2 m ∧ (x ∈ getD st.1 n ∨ x ∈ getD st.1 m) ∧ ¬ x = m) ∨
          (n ∉ getD st.2 m ∧ x ∈ getD st.1 n)) := by
  have h1 : (elimOne st m).1 = delKey ((getD st.2 m).foldl
      (fun acc u =>
        let st3 := (getD st.1 m).foldl (fun acc p => (addVal acc.1 u p, addVal acc.2 p u)) acc
        (dropVal st3.1 u m, st3.2)) st).1 m := rfl
  rw [h1, getD_delKey]
  by_cases hn : n = m
  · simp [hn]
  · rw [if_neg hn, mem_elimUserFold_g]
    simp [hn]

theorem mem_elimOne_rg (st : Graph × Graph) (m n x : Node) :
    x ∈ getD (elimOne st m).2 n ↔
      ¬ n = m ∧
        (x ∈ getD st.2 n ∨ (x ∈ getD st.2 m ∧ n ∈ getD st.1 m)) ∧
          ¬(n ∈ getD st.1 m ∧ x = m) := by
  have h1 : (elimOne st m).2 = delKey ((getD st.1 m).foldl (fun rg p => dropVal rg p m)
      ((getD st.2 m).foldl
        (fun acc u =>
          let st3 := (getD st.1 m).foldl (fun acc p => (addVal acc.1 u p, addVal acc.2 p u)) acc
          (dropVal st3.1 u m, st3.2)) st).2) m := rfl
  rw [h1, getD_delKey]
  by_cases hn : n = m
  · simp [hn]
  · rw [if_neg hn, mem_elimDropFold, mem_elimUserFold_rg]
    simp [hn]

theorem keys_elimProvFold_g (ps : List Node) (u : Node) (st : Graph × Graph)
    (hu : u ∈ keys st.1) :
    keys (ps.foldl (fun st p => (addVal st.1 u p, addVal st.2 p u)) st).1 = keys st.1 := by
  induction ps generalizing st with
  | nil => rfl
  | cons p rest ih =>
    rw [List.foldl_cons]
    have hk : keys (addVal st.1 u p) = keys st.1 := by
      rw [keys_addVal, if_pos hu]
    rw [ih (addVal st.1 u p, addVal st.2 p u) (by rw [hk]; exact hu)]
    exact hk

theorem keys_elimUserFold_g (users ps : List Node) (m : Node) (st : Graph × Graph)
    (hu : ∀ u ∈ users, u ∈ keys st.1) :
    keys (users.foldl
        (fun st u =>
          let st3 := ps.foldl (fun st p => (addVal st.1 u p, addVal st.2 p u)) st
          (dropVal st3.1 u m, st3.2)) st).1 = keys st.1 := by
  induction users generalizing st with
  | nil => rfl
  | cons u rest ih =>
    rw [List.foldl_cons]
    have hu0 : u ∈ keys st.1 := hu u (by simp)
    have hk1 : keys (ps.foldl (fun st p => (addVal st.1 u p, addVal st.2 p u)) st).1 =
        keys st.1 := keys_elimProvFold_g ps u st hu0
    have hk2 : keys (dropVal
        (ps.foldl (fun st p => (addVal st.1 u p, addVal st.2 p u)) st).1 u m) =
        keys st.1 := by
      rw [keys_dropVal, hk1, if_pos hu0]
    rw [ih _ (by rw [hk2]; exact fun u' hu' => hu u' (by simp [hu']))]
    exact hk2

theorem keys_elimOne_g (st : Graph × Graph) (m : Node)
    (hu : ∀ u ∈ getD st.2 m, u ∈ keys st.1) :
    keys (elimOne st m).1 = (keys st.1).filter (· ≠ m) := by
  have h1 : (elimOne st m).1 = delKey ((getD st.2 m).foldl
      (fun acc u =>
        let st3 := (getD st.1 m).foldl (fun acc p => (addVal acc.1 u p, addVal acc.2 p u)) acc
        (dropVal st3.1 u m, st3.2)) st).1 m := rfl
  rw [h1, keys_delKey, keys_elimUserFold_g _ _ _ _ hu]

/-- Conflict between a file-kinded and a module-kinded node. -/
theorem ne_of_kinds {a b : Node} (ha : a.isMod = false) (hb : b.isMod = true) : ¬ a = b :=
  fun h => by rw [h, hb] at ha; exact Bool.noConfusion ha

theorem elimOne_untouched_g (st : Graph × Graph) (m0 mm : Node) (hinv : ElimInv st)
    (hm0 : m0.isMod = true) (hmm : mm.isMod = true) (x : Node) (hne : ¬ mm = m0) :
    x ∈ getD (elimOne st m0).1 mm ↔ x ∈ getD st.1 mm := by
  obtain ⟨-, -, -, -, hrm⟩ := hinv
  rw [mem_elimOne_g]
  constructor
  · rintro ⟨-, ⟨hU, -, -⟩ | ⟨-, hx⟩⟩
    · exact absurd rfl (ne_of_kinds (hrm m0 hm0 mm hU).1 hmm)
    · exact hx
  · intro hx
    refine ⟨hne, Or.inr ⟨?_, hx⟩⟩
    intro hU
    exact absurd rfl (ne_of_kinds (hrm m0 hm0 mm hU).1 hmm)

theorem elimOne_untouched_rg (st : Graph × Graph) (m0 mm : Node) (hinv : ElimInv st)
    (hm0 : m0.isMod = true) (hmm : mm.isMod = true) (x : Node) (hne : ¬ mm = m0) :
    x ∈ getD (elimOne st m0).2 mm ↔ x ∈ getD st.2 mm := by
  obtain ⟨-, -, -, hgm, -⟩ := hinv
  have hmmP : mm ∉ getD st.1 m0 := fun hc =>
    absurd rfl (ne_of_kinds (hgm m0 hm0 mm hc) hmm)
  rw [mem_elimOne_rg]
  constructor
  · rintro ⟨-, hor | ⟨-, hP⟩, -⟩
    · exact hor
    · exact absurd hP hmmP
  · intro hx
    exact ⟨hne, Or.inl hx, fun hc => hmmP hc.1⟩

theorem valsNodup_elimOne (st : Graph × Graph) (m0 : Node) (h1 : ValsNodup st.1)
    (h2 : ValsNodup st.2) : ValsNodup (elimOne st m0).1 ∧ ValsNodup (elimOne st m0).2 := by
  have huser : ∀ (users ps : List Node) (st' : Graph × Graph),
      ValsNodup st'.1 → ValsNodup st'.2 →
      ValsNodup (users.foldl
        (fun acc u =>
          let st3 := ps.foldl (fun acc p => (addVal acc.1 u p, addVal acc.2 p u)) acc
          (dropVal st3.1 u m0, st3.2)) st').1 ∧
      ValsNodup (users.foldl
        (fun acc u =>
          let st3 := ps.foldl (fun acc p => (addVal acc.1 u p, addVal acc.2 p u)) acc
          (dropVal st3.1 u m0, st3.2)) st').2 := by
    intro users ps st' ha hb
    induction users generalizing st' with
    | nil => exact ⟨ha, hb⟩
    | cons u rest ih =>
      rw [List.foldl_cons]
      have hmidP : ∀ (qs : List Node) (st'' : Graph × Graph),
          ValsNodup st''.1 → ValsNodup st''.2 →
          ValsNodup (qs.foldl (fun acc p => (addVal acc.1 u p, addVal acc.2 p u)) st'').1 ∧
          ValsNodup (qs.foldl (fun acc p => (addVal acc.1 u p, addVal acc.2 p u)) st'').2 := by
        intro qs
        induction qs with
        | nil => exact fun st'' ha' hb' => ⟨ha', hb'⟩
        | cons q qrest qih =>
          intro st'' ha' hb'
          rw [List.foldl_cons]
          exact qih _ (valsNodup_addVal _ _ _ ha') (valsNodup_addVal _ _ _ hb')
      obtain ⟨hc, hd⟩ := hmidP ps st' ha hb
      exact ih _ (valsNodup_dropVal _ _ _ hc) hd
  obtain ⟨hc, hd⟩ := huser (getD st.2 m0) (getD st.1 m0) st h1 h2
  constructor
  · exact valsNodup_delKey _ _ hc
  · refine valsNodup_delKey _ _ ?_
    have hdrop : ∀ (qs : List Node) (rg : Graph), ValsNodup rg →
        ValsNodup (qs.foldl (fun rg p => dropVal rg p m0) rg) := by
      intro qs
      induction qs with
      | nil => exact fun rg h => h
      | cons q qrest qih =>
        intro rg h
        rw [List.foldl_cons]
        exact qih _ (valsNodup_dropVal _ _ _ h)
    exact hdrop _ _ hd

theorem elimInv_elimOne (st : Graph × Graph) (m0 : Node) (hinv : ElimInv st)
    (hm0 : m0.isMod = true) : ElimInv (elimOne st m0) := by
  obtain ⟨hk, hv1, hv2, hgm, hrm⟩ := hinv
  have hu : ∀ u ∈ getD st.2 m0, u ∈ keys st.1 := fun u huu => (hrm m0 hm0 u huu).2
  have hkeys := keys_elimOne_g st m0 hu
  obtain ⟨hc, hd⟩ := valsNodup_elimOne st m0 hv1 hv2
  refine ⟨?_, hc, hd, ?_, ?_⟩
  · rw [hkeys]; exact hk.filter _
  · intro m hm x hx
    rw [mem_elimOne_g] at hx
    obtain ⟨hne, hx⟩ := hx
    rcases hx with ⟨hU, -, -⟩ | ⟨-, hx⟩
    · exact absurd rfl (ne_of_kinds (hrm m0 hm0 m hU).1 hm)
    · exact hgm m hm x hx
  · intro m hm x hx
    rw [mem_elimOne_rg] at hx
    obtain ⟨hne, hor, -⟩ := hx
    rcases hor with hx | ⟨-, hP⟩
    · obtain ⟨hxf, hxk⟩ := hrm m hm x hx
      refine ⟨hxf, ?_⟩
      rw [hkeys, List.mem_filter]
      exact ⟨hxk, by simp [ne_of_kinds hxf hm0]⟩
    · exact absurd rfl (ne_of_kinds (hgm m0 hm0 m hP) hm)

theorem elimInv_elimFold (ms : List Node) (st : Graph × Graph) (hinv : ElimInv st)
    (hmods : ∀ m ∈ ms, m.isMod = true) : ElimInv (ms.foldl elimOne st) :=
  foldl_induction _ ElimInv ms st hinv
    (fun st' m hm hin => elimInv_elimOne st' m hin (hmods m hm))

theorem mem_elimFold_g (ms : List Node) (st : Graph × Graph) (hinv : ElimInv st)
    (hmods : ∀ m ∈ ms, m.isMod = true) (hnd : ms.Nodup) (n x : Node) :
    x ∈ getD (ms.foldl elimOne st).1 n ↔
      n ∉ ms ∧ ((x ∈ getD st.1 n ∧ ¬(x ∈ ms ∧ n ∈ getD st.2 x)) ∨
        ∃ m ∈ ms, n ∈ getD st.2 m ∧ x ∈ getD st.1 m) := by
  induction ms generalizing st with
  | nil => simp
  | cons m0 ms' ih =>
    have hm0 : m0.isMod = true := hmods m0 (by simp)
    have hmods' : ∀ m ∈ ms', m.isMod = true := fun m hm => hmods m (by simp [hm])
    have hm0ms : m0 ∉ ms' := (List.nodup_cons.mp hnd).1
    have hnd' : ms'.Nodup := (List.nodup_cons.mp hnd).2
    have hinv' : ElimInv (elimOne st m0) := elimInv_elimOne st m0 hinv hm0
    obtain ⟨hk, hv1, hv2, hgm, hrm⟩ := hinv
    rw [List.foldl_cons, ih (elimOne st m0) hinv' hmods' hnd']
    have hEx : (∃ m ∈ ms', n ∈ getD (elimOne st m0).2 m ∧ x ∈ getD (elimOne st m0).1 m) ↔
        ∃ m ∈ ms', n ∈ getD st.2 m ∧ x ∈ getD st.1 m := by
      apply exists_congr
      intro m
      by_cases hm : m ∈ ms'
      · have hmm := hmods' m hm
        have hne : ¬ m = m0 := fun hc => hm0ms (hc ▸ hm)
        rw [elimOne_untouched_rg st m0 m ⟨hk, hv1, hv2, hgm, hrm⟩ hm0 hmm n hne,
          elimOne_untouched_g st m0 m ⟨hk, hv1, hv2, hgm, hrm⟩ hm0 hmm x hne]
      · simp [hm]
    have hRx : (x ∈ ms' ∧ n ∈ getD (elimOne st m0).2 x) ↔ (x ∈ ms' ∧ n ∈ getD st.2 x) := by
      constructor
      · rintro ⟨hx, h⟩
        have hne : ¬ x = m0 := fun hc => hm0ms (hc ▸ hx)
        exact ⟨hx, (elimOne_untouched_rg st m0 x ⟨hk, hv1, hv2, hgm, hrm⟩ hm0
          (hmods' x hx) n hne).mp h⟩
      · rintro ⟨hx, h⟩
        have hne : ¬ x = m0 := fun hc => hm0ms (hc ▸ hx)
        exact ⟨hx, (elimOne_untouched_rg st m0 x ⟨hk, hv1, hv2, hgm, hrm⟩ hm0
          (hmods' x hx) n hne).mpr h⟩
    rw [hEx, hRx, mem_elimOne_g]
    have hcons : (∃ m ∈ m0 :: ms', n ∈ getD st.2 m ∧ x ∈ getD st.1 m) ↔
        ((n ∈ getD st.2 m0 ∧ x ∈ getD st.1 m0) ∨
          ∃ m ∈ ms', n ∈ getD st.2 m ∧ x ∈ getD st.1 m) := by
      constructor
      · rintro ⟨m, hm, h1, h2⟩
        rcases List.mem_cons.mp hm with rfl | hm'
        · exact Or.inl ⟨h1, h2⟩
        · exact Or.inr ⟨m, hm', h1, h2⟩
      · rintro (⟨h1, h2⟩ | ⟨m, hm', h1, h2⟩)
        · exact ⟨m0, by simp, h1, h2⟩
        · exact ⟨m, by simp [hm'], h1, h2⟩
    rw [hcons]
    have hfile_P : ∀ y ∈ getD st.1 m0, y.isMod = false := hgm m0 hm0
    have hnot_ms : ∀ y, y.isMod = false → y ∉ ms' := fun y hy hc =>
      absurd rfl (ne_of_kinds hy (hmods' y hc))
    have hEX_n : (∃ m ∈ ms', n ∈ getD st.2 m ∧ x ∈ getD st.1 m) → n.isMod = false := by
      rintro ⟨m, hm, h1, -⟩
      exact (hrm m (hmods' m hm) n h1).1
    constructor
    · rintro ⟨hn', hbig⟩
      rcases hbig with ⟨⟨hnm0, hg⟩, hnot⟩ | hEX
      · rcases hg with ⟨hU, hor, hxm0⟩ | ⟨hnU, hGxn⟩
        · rcases hor with hGxn | hGxP
          · refine ⟨?_, Or.inl ⟨hGxn, ?_⟩⟩
            · intro hc
              rcases List.mem_cons.mp hc with rfl | hc'
              · exact hnm0 rfl
              · exact hn' hc'
            · rintro ⟨hx01, hnRx⟩
              rcases List.mem_cons.mp hx01 with rfl | hx'
              · exact hxm0 rfl
              · exact hnot ⟨hx', hnRx⟩
          · refine ⟨?_, Or.inr (Or.inl ⟨hU, hGxP⟩)⟩
            intro hc
            rcases List.mem_cons.mp hc with rfl | hc'
            · exact hnm0 rfl
            · exact hn' hc'
        · refine ⟨?_, Or.inl ⟨hGxn, ?_⟩⟩
          · intro hc
            rcases List.mem_cons.mp hc with rfl | hc'
            · exact hnm0 rfl
            · exact hn' hc'
          · rintro ⟨hx01, hnRx⟩
            rcases List.mem_cons.mp hx01 with rfl | hx'
            · exact hnU hnRx
            · exact hnot ⟨hx', hnRx⟩
      · have hnf := hEX_n hEX
        refine ⟨?_, Or.inr (Or.inr hEX)⟩
        intro hc
        rcases List.mem_cons.mp hc with rfl | hc'
        · exact absurd rfl (ne_of_kinds hnf hm0)
        · exact hn' hc'
    · rintro ⟨hncons, hbig⟩
      have hnm0 : ¬ n = m0 := fun hc => hncons (List.mem_cons.mpr (Or.inl hc))
      have hn' : n ∉ ms' := fun hc => hncons (List.mem_cons.mpr (Or.inr hc))
      rcases hbig with ⟨hGxn, hnot⟩ | ⟨hU, hGxP⟩ | hEX
      · refine ⟨hn', Or.inl ⟨⟨hnm0, ?_⟩, ?_⟩⟩
        · by_cases hU : n ∈ getD st.2 m0
          · refine Or.inl ⟨hU, Or.inl hGxn, ?_⟩
            intro hc
            exact hnot ⟨List.mem_cons.mpr (Or.inl hc), by rw [hc]; exact hU⟩
          · exact Or.inr ⟨hU, hGxn⟩
        · rintro ⟨hx', hnRx⟩
          exact hnot ⟨List.mem_cons.mpr (Or.inr hx'), hnRx⟩
      · have hxf : x.isMod = false := hfile_P x hGxP
        refine ⟨hn', Or.inl ⟨⟨hnm0, Or.inl ⟨hU, Or.inr hGxP, ne_of_kinds hxf hm0⟩⟩, ?_⟩⟩
        rintro ⟨hx', -⟩
        exact hnot_ms x hxf hx'
      · exact ⟨hn', Or.inr hEX⟩

theorem mem_elimFold_rg (ms : List Node) (st : Graph × Graph) (hinv : ElimInv st)
    (hmods : ∀ m ∈ ms, m.isMod = true) (hnd : ms.Nodup) (n x : Node) :
    x ∈ getD (ms.foldl elimOne st).2 n ↔
      n ∉ ms ∧ ((x ∈ getD st.2 n ∧ ¬(x ∈ ms ∧ n ∈ getD st.1 x)) ∨
        ∃ m ∈ ms, n ∈ getD st.1 m ∧ x ∈ getD st.2 m) := by
  induction ms generalizing st with
  | nil => simp
  | cons m0 ms' ih =>
    have hm0 : m0.isMod = true := hmods m0 (by simp)
    have hmods' : ∀ m ∈ ms', m.isMod = true := fun m hm => hmods m (by simp [hm])
    have hm0ms : m0 ∉ ms' := (List.nodup_cons.mp hnd).1
    have hnd' : ms'.Nodup := (List.nodup_cons.mp hnd).2
    have hinv' : ElimInv (elimOne st m0) := elimInv_elimOne st m0 hinv hm0
    obtain ⟨hk, hv1, hv2, hgm, hrm⟩ := hinv
    rw [List.foldl_cons, ih (elimOne st m0) hinv' hmods' hnd']
    have hEx : (∃ m ∈ ms', n ∈ getD (elimOne st m0).1 m ∧ x ∈ getD (elimOne st m0).2 m) ↔
        ∃ m ∈ ms', n ∈ getD st.1 m ∧ x ∈ getD st.2 m := by
      apply exists_congr
      intro m
      by_cases hm : m ∈ ms'
      · have hmm := hmods' m hm
        have hne : ¬ m = m0 := fun hc => hm0ms (hc ▸ hm)
        rw [elimOne_untouched_g st m0 m ⟨hk, hv1, hv2, hgm, hrm⟩ hm0 hmm n hne,
          elimOne_untouched_rg st m0 m ⟨hk, hv1, hv2, hgm, hrm⟩ hm0 hmm x hne]
      · simp [hm]
    have hGx : (x ∈ ms' ∧ n ∈ getD (elimOne st m0).1 x) ↔ (x ∈ ms' ∧ n ∈ getD st.1 x) := by
      constructor
      · rintro ⟨hx, h⟩
        have hne : ¬ x = m0 := fun hc => hm0ms (hc ▸ hx)
        exact ⟨hx, (elimOne_untouched_g st m0 x ⟨hk, hv1, hv2, hgm, hrm⟩ hm0
          (hmods' x hx) n hne).mp h⟩
      · rintro ⟨hx, h⟩
        have hne : ¬ x = m0 := fun hc => hm0ms (hc ▸ hx)
        exact ⟨hx, (elimOne_untouched_g st m0 x ⟨hk, hv1, hv2, hgm, hrm⟩ hm0
          (hmods' x hx) n hne).mpr h⟩
    rw [hEx, hGx, mem_elimOne_rg]
    have hcons : (∃ m ∈ m0 :: ms', n ∈ getD st.1 m ∧ x ∈ getD st.2 m) ↔
        ((n ∈ getD st.1 m0 ∧ x ∈ getD st.2 m0) ∨
          ∃ m ∈ ms', n ∈ getD st.1 m ∧ x ∈ getD st.2 m) := by
      constructor
      · rintro ⟨m, hm, h1, h2⟩
        rcases List.mem_cons.mp hm with rfl | hm'
        · exact Or.inl ⟨h1, h2⟩
        · exact Or.inr ⟨m, hm', h1, h2⟩
      · rintro (⟨h1, h2⟩ | ⟨m, hm', h1, h2⟩)
        · exact ⟨m0, by simp, h1, h2⟩
        · exact ⟨m, by simp [hm'], h1, h2⟩
    rw [hcons]
    have hfile_U : ∀ y ∈ getD st.2 m0, y.isMod = false := fun y hy => (hrm m0 hm0 y hy).1
    have hnot_ms : ∀ y, y.isMod = false → y ∉ ms' := fun y hy hc =>
      absurd rfl (ne_of_kinds hy (hmods' y hc))
    have hEX_n : (∃ m ∈ ms', n ∈ getD st.1 m ∧ x ∈ getD st.2 m) → n.isMod = false := by
      rintro ⟨m, hm, h1, -⟩
      exact hgm m (hmods' m hm) n h1
    constructor
    · rintro ⟨hn', hbig⟩
      rcases hbig with ⟨⟨hnm0, hor, hnotP⟩, hnot⟩ | hEX
      · rcases hor with hRxn | ⟨hxU0, hnP0⟩
        · refine ⟨?_, Or.inl ⟨hRxn, ?_⟩⟩
          · intro hc
            rcases List.mem_cons.mp hc with rfl | hc'
            · exact hnm0 rfl
            · exact hn' hc'
          · rintro ⟨hx01, hnGx⟩
            rcases List.mem_cons.mp hx01 with rfl | hx'
            · exact hnotP ⟨hnGx, rfl⟩
            · exact hnot ⟨hx', hnGx⟩
        · refine ⟨?_, Or.inr (Or.inl ⟨hnP0, hxU0⟩)⟩
          intro hc
          rcases List.mem_cons.mp hc with rfl | hc'
          · exact hnm0 rfl
          · exact hn' hc'
      · have hnf := hEX_n hEX
        refine ⟨?_, Or.inr (Or.inr hEX)⟩
        intro hc
        rcases List.mem_cons.mp hc with rfl | hc'
        · exact absurd rfl (ne_of_kinds hnf hm0)
        · exact hn' hc'
    · rintro ⟨hncons, hbig⟩
      have hnm0 : ¬ n = m0 := fun hc => hncons (List.mem_cons.mpr (Or.inl hc))
      have hn' : n ∉ ms' := fun hc => hncons (List.mem_cons.mpr (Or.inr hc))
      rcases hbig with ⟨hRxn, hnot⟩ | ⟨hnP0, hxU0⟩ | hEX
      · refine ⟨hn', Or.inl ⟨⟨hnm0, Or.inl hRxn, ?_⟩, ?_⟩⟩
        · rintro ⟨hnP0, rfl⟩
          exact hnot ⟨List.mem_cons.mpr (Or.inl rfl), hnP0⟩
        · rintro ⟨hx', hnGx⟩
          exact hnot ⟨List.mem_cons.mpr (Or.inr hx'), hnGx⟩
      · have hxf : x.isMod = false := hfile_U x hxU0
        refine ⟨hn', Or.inl ⟨⟨hnm0, Or.inr ⟨hxU0, hnP0⟩, ?_⟩, ?_⟩⟩
        · rintro ⟨-, rfl⟩
          exact absurd rfl (ne_of_kinds hxf hm0)
        · rintro ⟨hx', -⟩
          exact hnot_ms x hxf hx'
      · exact ⟨hn', Or.inr hEX⟩

theorem keys_elimFold_g (ms : List Node) (st : Graph × Graph) (hinv : ElimInv st)
    (hmods : ∀ m ∈ ms, m.isMod = true) :
    keys (ms.foldl elimOne st).1 = (keys st.1).filter (fun a => a ∉ ms) := by
  induction ms generalizing st with
  | nil =>
    have hf : (keys st.1).filter (fun a => a ∉ ([] : List Node)) = keys st.1 :=
      List.filter_eq_self.mpr (fun a _ => by simp)
    rw [List.foldl_nil, hf]
  | cons m0 ms' ih =>
    have hm0 : m0.isMod = true := hmods m0 (by simp)
    have hmods' : ∀ m ∈ ms', m.isMod = true := fun m hm => hmods m (by simp [hm])
    have hinv' : ElimInv (elimOne st m0) := elimInv_elimOne st m0 hinv hm0
    have hu : ∀ u ∈ getD st.2 m0, u ∈ keys st.1 := fun u huu =>
      (hinv.2.2.2.2 m0 hm0 u huu).2
    rw [List.foldl_cons, ih (elimOne st m0) hinv' hmods', keys_elimOne_g st m0 hu,
      List.filter_filter]
    apply List.filter_congr
    intro a _
    by_cases h0 : a = m0 <;> by_cases h1 : a ∈ ms' <;> simp [h0, h1]

/-! ## The eliminated graphs of the resolver pipeline -/

theorem elimInv_build (ext : List String) (rules : List Rule) :
    ElimInv (buildGraphs ext rules) := by
  obtain ⟨hk, hv1, hv2⟩ := goodSt_build ext rules
  refine ⟨hk, hv1, hv2, ?_, ?_⟩
  · intro m hm x hx
    cases m with
    | file s => exact absurd hm (by simp [Node.isMod])
    | mod s =>
      rw [mem_build_g_mod] at hx
      obtain ⟨-, r, -, -, hx⟩ := hx
      rw [hx]; rfl
  · intro m hm x hx
    cases m with
    | file s => exact absurd hm (by simp [Node.isMod])
    | mod s =>
      rw [mem_build_rg_mod] at hx
      obtain ⟨r, hr, hreq, hx⟩ := hx
      subst hx
      refine ⟨rfl, ?_⟩
      rw [mem_keys_build_g]
      exact Or.inr (Or.inr (Or.inl ⟨r, hr, fun hc => by simp [hc] at hreq, rfl⟩))

theorem mem_modKeysOf (ext : List String) (rules : List Rule) (k : Node) :
    k ∈ modKeysOf ext rules ↔ k ∈ keys (buildGraphs ext rules).1 ∧ k.isMod = true := by
  unfold modKeysOf
  simp [List.mem_filter]

theorem modKeysOf_isMod (ext : List String) (rules : List Rule) :
    ∀ m ∈ modKeysOf ext rules, m.isMod = true := fun m hm =>
  ((mem_modKeysOf ext rules m).mp hm).2

theorem modKeysOf_nodup (ext : List String) (rules : List Rule) :
    (modKeysOf ext rules).Nodup :=
  (goodSt_build ext rules).1.filter _

theorem mem_elimGraphs_g (ext : List String) (rules : List Rule) (n x : Node) :
    x ∈ getD (elimGraphs ext rules).1 n ↔
      n ∉ modKeysOf ext rules ∧
        ((x ∈ getD (buildGraphs ext rules).1 n ∧
            ¬(x ∈ modKeysOf ext rules ∧ n ∈ getD (buildGraphs ext rules).2 x)) ∨
          ∃ m ∈ modKeysOf ext rules,
            n ∈ getD (buildGraphs ext rules).2 m ∧ x ∈ getD (buildGraphs ext rules).1 m) := by
  exact mem_elimFold_g (modKeysOf ext rules) (buildGraphs ext rules)
    (elimInv_build ext rules) (modKeysOf_isMod ext rules) (modKeysOf_nodup ext rules) n x

theorem mem_elimGraphs_rg (ext : List String) (rules : List Rule) (n x : Node) :
    x ∈ getD (elimGraphs ext rules).2 n ↔
      n ∉ modKeysOf ext rules ∧
        ((x ∈ getD (buildGraphs ext rules).2 n ∧
            ¬(x ∈ modKeysOf ext rules ∧ n ∈ getD (buildGraphs ext rules).1 x)) ∨
          ∃ m ∈ modKeysOf ext rules,
            n ∈ getD (buildGraphs ext rules).1 m ∧ x ∈ getD (buildGraphs ext rules).2 m) := by
  exact mem_elimFold_rg (modKeysOf ext rules) (buildGraphs ext rules)
    (elimInv_build ext rules) (modKeysOf_isMod ext rules) (modKeysOf_nodup ext rules) n x

theorem elimInv_elimGraphs (ext : List String) (rules : List Rule) :
    ElimInv (elimGraphs ext rules) :=
  elimInv_elimFold (modKeysOf ext rules) (buildGraphs ext rules)
    (elimInv_build ext rules) (modKeysOf_isMod ext rules)

theorem mem_keys_elimGraphs (ext : List String) (rules : List Rule) (k : Node) :
    k ∈ keys (elimGraphs ext rules).1 ↔
      k ∈ keys (buildGraphs ext rules).1 ∧ k.isMod = false := by
  unfold elimGraphs
  rw [keys_elimFold_g (modKeysOf ext rules) (buildGraphs ext rules)
    (elimInv_build ext rules) (modKeysOf_isMod ext rules), List.mem_filter]
  constructor
  · rintro ⟨hk, hnot⟩
    simp only [decide_eq_true_eq] at hnot
    refine ⟨hk, ?_⟩
    cases hb : Node.isMod k
    · rfl
    · exact absurd ((mem_modKeysOf ext rules k).mpr ⟨hk, hb⟩) hnot
  · rintro ⟨hk, hb⟩
    refine ⟨hk, ?_⟩
    simp only [decide_eq_true_eq]
    intro hc
    rw [((mem_modKeysOf ext rules k).mp hc).2] at hb
    exact Bool.noConfusion hb

/-- A file key of the eliminated graph: exactly the primary outputs of rules
with at least one `provides` or `requires` entry. -/
theorem file_key_elimGraphs (ext : List String) (rules : List Rule) (s : String) :
    Node.file s ∈ keys (elimGraphs ext rules).1 ↔
      ∃ r ∈ rules, (r.provides ≠ [] ∨ r.requires ≠ []) ∧ s = r.primaryOutput := by
  rw [mem_keys_elimGraphs]
  constructor
  · rintro ⟨hk, -⟩
    rw [mem_keys_build_g] at hk
    rcases hk with ⟨r, hr, hne, heq⟩ | ⟨r, hr, m, hm, heq⟩ | ⟨r, hr, hne, heq⟩ |
      ⟨r, hr, m, hm, hE, heq⟩
    · exact ⟨r, hr, Or.inl hne, Node.file.inj heq⟩
    · exact absurd heq (file_ne_mod _ _)
    · exact ⟨r, hr, Or.inr hne, Node.file.inj heq⟩
    · exact absurd heq (file_ne_mod _ _)
  · rintro ⟨r, hr, hne | hne, heq⟩
    · exact ⟨(mem_keys_build_g ext rules _).mpr
        (Or.inl ⟨r, hr, hne, by rw [heq]⟩), rfl⟩
    · exact ⟨(mem_keys_build_g ext rules _).mpr
        (Or.inr (Or.inr (Or.inl ⟨r, hr, hne, by rw [heq]⟩))), rfl⟩

/-- Provenance of a file-to-file dependency edge surviving elimination: it comes
from a module name that is not external, required by the consumer's rule and
provided by the producer's rule. -/
theorem dep_edge_provenance (ext : List String) (rules : List Rule) (s : String) (x : Node)
    (hx : x ∈ getD (elimGraphs ext rules).1 (Node.file s)) (hxfile : x.isMod = false) :
    ∃ mn, mn ∉ stdModules ∧ mn ∉ ext ∧
      (∃ r ∈ rules, s = r.primaryOutput ∧ mn ∈ r.requires) ∧
      ∃ r' ∈ rules, x = Node.file r'.primaryOutput ∧ mn ∈ r'.provides := by
  rw [mem_elimGraphs_g] at hx
  obtain ⟨-, hx⟩ := hx
  rcases hx with ⟨hx, -⟩ | ⟨m, hm, h1, h2⟩
  · rw [mem_build_g_file] at hx
    obtain ⟨r, hr, hs, mn, hmn, hxeq⟩ := hx
    rw [hxeq] at hxfile
    exact absurd hxfile (by simp [Node.isMod])
  · have hmm : m.isMod = true := modKeysOf_isMod ext rules m hm
    cases m with
    | file t => exact absurd hmm (by simp [Node.isMod])
    | mod mn =>
      rw [mem_build_rg_mod] at h1
      rw [mem_build_g_mod] at h2
      obtain ⟨r, hr, hreq, hfil⟩ := h1
      obtain ⟨hnotE, r', hr', hprov, hxeq⟩ := h2
      have hrequiredIn : ∃ r0 ∈ rules, mn ∈ r0.requires := ⟨r, hr, hreq⟩
      have hnstd : mn ∉ stdModules := fun hc => hnotE ⟨Or.inl hc, hrequiredIn⟩
      have hnext : mn ∉ ext := fun hc => hnotE ⟨Or.inr hc, hrequiredIn⟩
      exact ⟨mn, hnstd, hnext, ⟨r, hr, Node.file.inj hfil, hreq⟩, r', hr', hxeq, hprov⟩

/-- A dangling required module (no provider, not external) survives elimination
as an edge from the requiring file to a module node that is not a graph key. -/
theorem dangling_edge (ext : List String) (rules : List Rule) (r : Rule) (hr : r ∈ rules)
    (mn : String) (hm : mn ∈ r.requires) (hnstd : mn ∉ stdModules) (hnext : mn ∉ ext)
    (hnoprov : ∀ r' ∈ rules, mn ∉ r'.provides) :
    Node.mod mn ∈ getD (elimGraphs ext rules).1 (Node.file r.primaryOutput) ∧
      Node.mod mn ∉ keys (elimGraphs ext rules).1 ∧
      Node.file r.primaryOutput ∈ keys (elimGraphs ext rules).1 := by
  have hnkeys : Node.mod mn ∉ keys (buildGraphs ext rules).1 := by
    rw [mem_keys_build_g]
    rintro (⟨r', hr', -, heq⟩ | ⟨r', hr', m', hm', heq⟩ | ⟨r', hr', -, heq⟩ |
      ⟨r', hr', m', hm', hE, heq⟩)
    · exact mod_ne_file _ _ heq
    · cases Node.mod.inj heq; exact hnoprov r' hr' hm'
    · exact mod_ne_file _ _ heq
    · cases Node.mod.inj heq
      rcases hE with hE | hE
      · exact hnstd hE
      · exact hnext hE
  have hnms : Node.mod mn ∉ modKeysOf ext rules := fun hc =>
    hnkeys ((mem_modKeysOf ext rules _).mp hc).1
  refine ⟨?_, ?_, ?_⟩
  · rw [mem_elimGraphs_g]
    refine ⟨?_, Or.inl ⟨?_, ?_⟩⟩
    · intro hc
      exact absurd (modKeysOf_isMod ext rules _ hc) (by simp [Node.isMod])
    · rw [mem_build_g_file]
      exact ⟨r, hr, rfl, mn, hm, rfl⟩
    · rintro ⟨hc, -⟩
      exact hnms hc
  · rw [mem_keys_elimGraphs]
    rintro ⟨hc, -⟩
    exact hnkeys hc
  · rw [file_key_elimGraphs]
    exact ⟨r, hr, Or.inr (fun hc => by simp [hc] at hm), rfl⟩

/-! ## The Kahn sort -/

theorem degLookup_decDeg_self (d : DegList) (x : Node) :
    degLookup (decDeg d x) x = some ((degLookup d x).getD 0 - 1) := by
  induction d with
  | nil => simp [decDeg, degLookup]
  | cons kv rest ih =>
    obtain ⟨k, v⟩ := kv
    by_cases hk : k = x
    · subst hk; simp [decDeg, degLookup]
    · simp [decDeg, degLookup, hk, ih]

theorem degLookup_decDeg_other (d : DegList) (x y : Node) (h : ¬ y = x) :
    degLookup (decDeg d x) y = degLookup d y := by
  induction d with
  | nil =>
    show (if x = y then some (-1) else none) = none
    rw [if_neg (fun hc : x = y => h hc.symm)]
  | cons kv rest ih =>
    obtain ⟨k, v⟩ := kv
    by_cases hk : k = x
    · subst hk
      have h1 : decDeg ((k, v) :: rest) k = (k, v - 1) :: rest := by
        show (if k = k then _ else _) = _
        rw [if_pos rfl]
      rw [h1]
      show (if k = y then some (v - 1) else degLookup rest y) =
        if k = y then some v else degLookup rest y
      rw [if_neg (fun hc : k = y => h hc.symm), if_neg (fun hc : k = y => h hc.symm)]
    · have h1 : decDeg ((k, v) :: rest) x = (k, v) :: decDeg rest x := by
        show (if k = x then _ else _) = _
        rw [if_neg hk]
      rw [h1]
      show (if k = y then some v else degLookup (decDeg rest x) y) = _
      by_cases hy : k = y
      · rw [if_pos hy]
        show _ = (if k = y then some v else degLookup rest y)
        rw [if_pos hy]
      · rw [if_neg hy, ih]
        show _ = (if k = y then some v else degLookup rest y)
        rw [if_neg hy]

theorem length_decDeg_ge (d : DegList) (x : Node) : d.length ≤ (decDeg d x).length := by
  induction d with
  | nil => simp [decDeg]
  | cons kv rest ih =>
    obtain ⟨k, v⟩ := kv
    by_cases hk : k = x
    · have h1 : decDeg ((k, v) :: rest) x = (k, v - 1) :: rest := by
        show (if k = x then _ else _) = _
        rw [if_pos hk]
      rw [h1]
      simp
    · have h1 : decDeg ((k, v) :: rest) x = (k, v) :: decDeg rest x := by
        show (if k = x then _ else _) = _
        rw [if_neg hk]
      rw [h1]
      simpa using ih

theorem sumPos_decDeg (d : DegList) (x : Node) :
    sumPos (decDeg d x) + (if 0 < (degLookup d x).getD 0 then 1 else 0) = sumPos d := by
  induction d with
  | nil => simp [decDeg, sumPos, degLookup]
  | cons kv rest ih =>
    obtain ⟨k, v⟩ := kv
    by_cases hk : k = x
    · have h1 : decDeg ((k, v) :: rest) x = (k, v - 1) :: rest := by
        show (if k = x then _ else _) = _
        rw [if_pos hk]
      have h2 : degLookup ((k, v) :: rest) x = some v := by
        show (if k = x then some v else _) = _
        rw [if_pos hk]
      rw [h1, h2]
      simp only [sumPos, List.map_cons, List.sum_cons, Option.getD_some]
      by_cases hv : 0 < v
      · rw [if_pos hv]; omega
      · rw [if_neg hv]; omega
    · have h1 : decDeg ((k, v) :: rest) x = (k, v) :: decDeg rest x := by
        show (if k = x then _ else _) = _
        rw [if_neg hk]
      have h2 : degLookup ((k, v) :: rest) x = degLookup rest x := by
        show (if k = x then _ else _) = _
        rw [if_neg hk]
      rw [h1, h2]
      simp only [sumPos, List.map_cons, List.sum_cons] at ih ⊢
      omega

theorem degLookup_buildDeg (g : Graph) (n : Node) :
    degLookup (buildDeg g) n = (lookupG g n).map (fun v => (v.length : Int)) := by
  induction g with
  | nil => simp [buildDeg, degLookup, lookupG]
  | cons kv rest ih =>
    obtain ⟨k, v⟩ := kv
    by_cases hk : k = n <;> simp [buildDeg, degLookup, lookupG, hk, ih] at *

theorem length_buildDeg (g : Graph) : (buildDeg g).length = (keys g).length := by
  simp [buildDeg, keys]

theorem isSome_buildDeg_iff (g : Graph) (n : Node) :
    (degLookup (buildDeg g) n).isSome = true ↔ n ∈ keys g := by
  rw [degLookup_buildDeg, mem_keys_iff_lookup]
  cases lookupG g n <;> simp

theorem getD_buildDeg_of_mem (g : Graph) (n : Node) (h : n ∈ keys g) :
    (degLookup (buildDeg g) n).getD 0 = ((getD g n).length : Int) := by
  rw [degLookup_buildDeg]
  obtain ⟨v, hv⟩ := Option.isSome_iff_exists.mp ((mem_keys_iff_lookup g n).mp h)
  simp [hv, getD]

theorem foldNbrs_spec (nbrs : List Node) (q : List Node) (deg : DegList) (hnd : nbrs.Nodup) :
    (nbrs.foldl stepNbr (q, deg)).1 =
        q ++ nbrs.filter (fun nb => decide (degLookup deg nb = some 1)) ∧
      (∀ y, degLookup (nbrs.foldl stepNbr (q, deg)).2 y =
        if y ∈ nbrs then some ((degLookup deg y).getD 0 - 1) else degLookup deg y) ∧
      deg.length ≤ (nbrs.foldl stepNbr (q, deg)).2.length := by
  induction nbrs generalizing q deg with
  | nil => simp
  | cons nb rest ih =>
    have hnb : nb ∉ rest := (List.nodup_cons.mp hnd).1
    have hnd' : rest.Nodup := (List.nodup_cons.mp hnd).2
    rw [List.foldl_cons]
    have hfst : (stepNbr (q, deg) nb).1 =
        if degLookup (decDeg deg nb) nb = some 0 then q ++ [nb] else q := rfl
    have hsnd : (stepNbr (q, deg) nb).2 = decDeg deg nb := rfl
    obtain ⟨ih1, ih2, ih3⟩ := ih (stepNbr (q, deg) nb).1 (stepNbr (q, deg) nb).2 hnd'
    have hcond : (degLookup (decDeg deg nb) nb = some 0) ↔ (degLookup deg nb = some 1) := by
      rw [degLookup_decDeg_self]
      cases h : degLookup deg nb with
      | none => simp
      | some v =>
        simp only [Option.getD_some, Option.some_inj]
        omega
    refine ⟨?_, ?_, ?_⟩
    · rw [ih1]
      have hq1 : (stepNbr (q, deg) nb).1 =
          q ++ (if degLookup deg nb = some 1 then [nb] else []) := by
        rw [hfst]
        by_cases hc : degLookup deg nb = some 1
        · rw [if_pos (hcond.mpr hc), if_pos hc]
        · rw [if_neg (fun hcc => hc (hcond.mp hcc)), if_neg hc, List.append_nil]
      have hfil : rest.filter
          (fun nb' => decide (degLookup (stepNbr (q, deg) nb).2 nb' = some 1)) =
          rest.filter (fun nb' => decide (degLookup deg nb' = some 1)) := by
        apply List.filter_congr
        intro a ha
        have hane : ¬ a = nb := fun hc => hnb (hc ▸ ha)
        rw [hsnd, degLookup_decDeg_other deg nb a hane]
      rw [hq1, hfil, List.filter_cons]
      by_cases hc : degLookup deg nb = some 1
      · rw [if_pos hc, if_pos (by simp [hc])]
        simp
      · rw [if_neg hc, if_neg (by simp [hc]), List.append_nil]
    · intro y
      rw [ih2 y, hsnd]
      by_cases hy : y ∈ rest
      · rw [if_pos hy, if_pos (List.mem_cons.mpr (Or.inr hy)),
          degLookup_decDeg_other deg nb y (fun hc => hnb (hc ▸ hy))]
      · rw [if_neg hy]
        by_cases hynb : y = nb
        · subst hynb
          rw [if_pos (List.mem_cons.mpr (Or.inl rfl)), degLookup_decDeg_self]
        · have hmem : y ∉ nb :: rest := fun hc => by
            rcases List.mem_cons.mp hc with hc' | hc'
            · exact hynb hc'
            · exact hy hc'
          rw [if_neg hmem, degLookup_decDeg_other deg nb y hynb]
    · calc deg.length ≤ (decDeg deg nb).length := length_decDeg_ge deg nb
        _ = (stepNbr (q, deg) nb).2.length := by rw [hsnd]
        _ ≤ _ := ih3

theorem foldNbrs_measure (nbrs : List Node) (q : List Node) (deg : DegList) :
    (nbrs.foldl stepNbr (q, deg)).1.length + sumPos (nbrs.foldl stepNbr (q, deg)).2 ≤
      q.length + sumPos deg := by
  induction nbrs generalizing q deg with
  | nil => simp
  | cons nb rest ih =>
    rw [List.foldl_cons]
    refine le_trans (ih _ _) ?_
    show (stepNbr (q, deg) nb).1.length + sumPos (stepNbr (q, deg) nb).2 ≤
      q.length + sumPos deg
    have hfst : (stepNbr (q, deg) nb).1 =
        if degLookup (decDeg deg nb) nb = some 0 then q ++ [nb] else q := rfl
    have hsnd : (stepNbr (q, deg) nb).2 = decDeg deg nb := rfl
    rw [hfst, hsnd]
    have hsum := sumPos_decDeg deg nb
    by_cases hc : degLookup (decDeg deg nb) nb = some 0
    · rw [if_pos hc]
      have hpos : 0 < (degLookup deg nb).getD 0 := by
        rw [degLookup_decDeg_self] at hc
        cases h : degLookup deg nb with
        | none => rw [h] at hc; simp at hc
        | some v =>
          rw [h] at hc
          simp only [Option.getD_some, Option.some_inj] at hc
          simp only [h, Option.getD_some]
          omega
      rw [if_pos hpos] at hsum
      simp only [List.length_append, List.length_singleton]
      omega
    · rw [if_neg hc]
      by_cases hpos : 0 < (degLookup deg nb).getD 0
      · rw [if_pos hpos] at hsum; omega
      · rw [if_neg hpos] at hsum; omega

theorem sortLoopF_fuel_irrel (R : Graph) : ∀ fuel fuel' (q out : List Node) (deg : DegList),
    q.length + sumPos deg < fuel → q.length + sumPos deg < fuel' →
    sortLoopF R fuel q out deg = sortLoopF R fuel' q out deg := by
  intro fuel
  induction fuel with
  | zero => exact fun fuel' q out deg h _ => absurd h (Nat.not_lt_zero _)
  | succ f ihf =>
    intro fuel' q out deg h h'
    cases fuel' with
    | zero => exact absurd h' (Nat.not_lt_zero _)
    | succ f' =>
      cases q with
      | nil => rfl
      | cons n q =>
        have h1 : sortLoopF R (f + 1) (n :: q) out deg =
            sortLoopF R f ((getD R n).foldl stepNbr (q, deg)).1 (out ++ [n])
              ((getD R n).foldl stepNbr (q, deg)).2 := rfl
        have h2 : sortLoopF R (f' + 1) (n :: q) out deg =
            sortLoopF R f' ((getD R n).foldl stepNbr (q, deg)).1 (out ++ [n])
              ((getD R n).foldl stepNbr (q, deg)).2 := rfl
        rw [h1, h2]
        have hm := foldNbrs_measure (getD R n) q deg
        have hlen : (n :: q).length = q.length + 1 := rfl
        rw [hlen] at h h'
        exact ihf f' _ _ _ (by omega) (by omega)

theorem degLookup_of_mem (d : DegList) (hnd : (d.map Prod.fst).Nodup) (k : Node) (v : Int)
    (hkv : (k, v) ∈ d) : degLookup d k = some v := by
  induction d with
  | nil => simp at hkv
  | cons kv rest ih =>
    obtain ⟨k', v'⟩ := kv
    rcases List.mem_cons.mp hkv with heq | hmem
    · cases heq
      show (if k = k then some v else _) = _
      rw [if_pos rfl]
    · have hk' : ¬ k' = k := by
        intro hc
        subst hc
        exact (List.nodup_cons.mp hnd).1
          (List.mem_map.mpr ⟨(k', v), hmem, rfl⟩)
      show (if k' = k then some v' else degLookup rest k) = _
      rw [if_neg hk']
      exact ih (List.nodup_cons.mp hnd).2 hmem

theorem sortInv_init (G R : Graph) (hk : (keys G).Nodup) :
    SortInv G R (initQueue (buildDeg G)) [] (buildDeg G) := by
  have hkeysD : (buildDeg G).map Prod.fst = keys G := by simp [buildDeg, keys]
  refine ⟨List.nodup_nil, ?_, ?_, ?_, le_refl _, ?_, ?_⟩
  · unfold initQueue
    have hsub : ((buildDeg G).filter (fun kv => kv.2 = 0)).map Prod.fst |>.Sublist
        ((buildDeg G).map Prod.fst) := (List.filter_sublist _).map Prod.fst
    exact (hkeysD ▸ hk).sublist hsub
  · intro n _
    exact List.not_mem_nil n
  · intro n
    have hdc : decCount R n [] = 0 := rfl
    rw [hdc]
    cases hs : degLookup (buildDeg G) n with
    | none => simp [hs]
    | some v => simp [hs]
  · intro n hn
    unfold initQueue at hn
    obtain ⟨kv, hmem, hfst⟩ := List.mem_map.mp hn
    obtain ⟨hin, hval⟩ := List.mem_filter.mp hmem
    simp only [decide_eq_true_eq] at hval
    obtain ⟨k', v'⟩ := kv
    cases hfst
    have hlk : degLookup (buildDeg G) k' = some v' :=
      degLookup_of_mem (buildDeg G) (hkeysD ▸ hk) k' v' hin
    rw [hlk]
    simp only [Option.isSome_some, Option.getD_some, true_and]
    have hv0 : v' = 0 := hval
    rw [hv0]
    simp [decCount]
  · intro i h
    simp at h

theorem sortInv_step (G R : Graph) (hR : ∀ p, (getD R p).Nodup) (n : Node)
    (q out : List Node) (deg : DegList) (hinv : SortInv G R (n :: q) out deg) :
    SortInv G R ((getD R n).foldl stepNbr (q, deg)).1 (out ++ [n])
      ((getD R n).foldl stepNbr (q, deg)).2 := by
  obtain ⟨hOut, hQ, hDisj, hLook, hLen, hQS, hOS⟩ := hinv
  obtain ⟨hf1, hf2, hf3⟩ := foldNbrs_spec (getD R n) q deg (hR n)
  have hdecCount : ∀ y, decCount R y (out ++ [n]) =
      decCount R y out + (if y ∈ getD R n then 1 else 0) := by
    intro y
    unfold decCount
    rw [List.countP_append]
    by_cases hyn : y ∈ getD R n <;>
      simp [List.countP_cons, hyn]
  have hdecMono : ∀ y, decCount R y out ≤ decCount R y (out ++ [n]) := by
    intro y
    rw [hdecCount y]
    omega
  have houtspec' : ∀ a ∈ out, (degLookup (buildDeg G) a).isSome = true ∧
      (degLookup (buildDeg G) a).getD 0 ≤ (decCount R a out : Int) := by
    intro a ha
    obtain ⟨i, hget⟩ := List.mem_iff_get.mp ha
    obtain ⟨hsome, hle⟩ := hOS i.1 i.2
    simp only [Fin.eta] at hsome hle
    rw [hget] at hsome hle
    refine ⟨hsome, le_trans hle ?_⟩
    have hsub2 : decCount R a (out.take i.1) ≤ decCount R a out :=
      (List.take_sublist i.1 out).countP_le _
    exact Int.ofNat_le.mpr hsub2
  have hfilspec : ∀ a ∈ (getD R n).filter (fun nb => decide (degLookup deg nb = some 1)),
      degLookup deg a = some 1 ∧ a ∈ getD R n := by
    intro a ha
    obtain ⟨h1, h2⟩ := List.mem_filter.mp ha
    simp only [decide_eq_true_eq] at h2
    exact ⟨h2, h1⟩
  have hone : ∀ a, degLookup deg a = some 1 →
      (degLookup (buildDeg G) a).isSome = true ∧
        (degLookup (buildDeg G) a).getD 0 = (decCount R a out : Int) + 1 ∧
        a ∉ q ∧ a ∉ out ∧ ¬ a = n := by
    intro a hsome1
    have hL := hLook a
    rw [hsome1] at hL
    by_cases hc : (degLookup (buildDeg G) a).isSome = true ∨ 0 < decCount R a out
    · rw [if_pos hc] at hL
      have heq : (degLookup (buildDeg G) a).getD 0 - (decCount R a out : Int) = 1 := by
        have := Option.some_inj.mp hL.symm
        omega
      have hsome : (degLookup (buildDeg G) a).isSome = true := by
        rcases hc with hc | hc
        · exact hc
        · by_contra hns
          have hnone : degLookup (buildDeg G) a = none :=
            Option.not_isSome_iff_eq_none.mp hns
          rw [hnone] at heq
          simp only [Option.getD_none] at heq
          omega
      refine ⟨hsome, by omega, ?_, ?_, ?_⟩
      · intro haq
        have := (hQS a (List.mem_cons.mpr (Or.inr haq))).2
        omega
      · intro hao
        have := (houtspec' a hao).2
        omega
      · intro haeq
        subst haeq
        have := (hQS a (List.mem_cons.mpr (Or.inl rfl))).2
        omega
    · rw [if_neg hc] at hL
      exact absurd hL (by simp)
  refine ⟨?_, ?_, ?_, ?_, le_trans hLen hf3, ?_, ?_⟩
  · rw [List.nodup_append]
    refine ⟨hOut, by simp, ?_⟩
    intro a ha hb
    rcases List.mem_singleton.mp hb with rfl
    exact hDisj a (List.mem_cons.mpr (Or.inl rfl)) ha
  · rw [hf1, List.nodup_append]
    refine ⟨(List.nodup_cons.mp hQ).2, (hR n).filter _, ?_⟩
    intro a ha hb
    exact (hone a (hfilspec a hb).1).2.2.1 ha
  · rw [hf1]
    intro a ha
    rcases List.mem_append.mp ha with haq | haf
    · intro hc
      rcases List.mem_append.mp hc with hco | hcn
      · exact hDisj a (List.mem_cons.mpr (Or.inr haq)) hco
      · have haeq : a = n := List.mem_singleton.mp hcn
        subst haeq
        exact (List.nodup_cons.mp hQ).1 haq
    · obtain ⟨-, -, -, hno, hnn⟩ := hone a (hfilspec a haf).1
      intro hc
      rcases List.mem_append.mp hc with hco | hcn
      · exact hno hco
      · exact hnn (List.mem_singleton.mp hcn)
  · intro y
    rw [hf2 y, hdecCount y]
    by_cases hyn : y ∈ getD R n
    · rw [if_pos hyn, if_pos hyn, hLook y]
      have hcr : (degLookup (buildDeg G) y).isSome = true ∨ 0 < decCount R y out + 1 :=
        Or.inr (by omega)
      by_cases hc : (degLookup (buildDeg G) y).isSome = true ∨ 0 < decCount R y out
      · rw [if_pos hc, if_pos hcr]
        simp only [Option.getD_some, Option.some_inj]
        push_cast
        omega
      · rw [if_neg hc, if_pos hcr]
        have hnone : degLookup (buildDeg G) y = none := by
          rcases not_or.mp hc with ⟨h1, -⟩
          exact Option.not_isSome_iff_eq_none.mp h1
        have h2 : ¬ 0 < decCount R y out := (not_or.mp hc).2
        have hdc0 : decCount R y out = 0 := by omega
        rw [hnone, hdc0]
        simp
    · rw [if_neg hyn, if_neg hyn, hLook y]
      simp only [Nat.add_zero]
  · rw [hf1]
    intro a ha
    rcases List.mem_append.mp ha with ha | ha
    · obtain ⟨h1, h2⟩ := hQS a (List.mem_cons.mpr (Or.inr ha))
      exact ⟨h1, le_trans h2 (by exact_mod_cast Int.ofNat_le.mpr (hdecMono a))⟩
    · obtain ⟨hfil1, hfil2⟩ := hfilspec a ha
      obtain ⟨hsome, heq, -, -, -⟩ := hone a hfil1
      refine ⟨hsome, ?_⟩
      rw [hdecCount a, if_pos hfil2]
      push_cast
      omega
  · intro i h
    rw [List.length_append, List.length_singleton] at h
    by_cases hi : i < out.length
    · have hget : (out ++ [n]).get ⟨i, by rw [List.length_append]; omega⟩ =
          out.get ⟨i, hi⟩ := List.get_append i hi
      have htake : (out ++ [n]).take i = out.take i := by
        rw [List.take_append_eq_append_take]
        have : i - out.length = 0 := by omega
        rw [this]
        simp
      rw [hget, htake]
      exact hOS i hi
    · have hieq : i = out.length := by omega
      subst hieq
      have hget : (out ++ [n]).get ⟨out.length, by simp⟩ = n := by
        rw [List.get_append_right] <;> simp
      have htake : (out ++ [n]).take out.length = out := List.take_left out [n]
      rw [hget, htake]
      exact hQS n (List.mem_cons.mpr (Or.inl rfl))

theorem sortLoopF_inv (G R : Graph) (hR : ∀ p, (getD R p).Nodup) :
    ∀ fuel (q out : List Node) (deg : DegList), SortInv G R q out deg →
      ∃ qF, SortInv G R qF (sortLoopF R fuel q out deg).1 (sortLoopF R fuel q out deg).2 := by
  intro fuel
  induction fuel with
  | zero => exact fun q out deg h => ⟨q, h⟩
  | succ f ihf =>
    intro q out deg h
    cases q with
    | nil => exact ⟨[], h⟩
    | cons n q =>
      have hstep := sortInv_step G R hR n q out deg h
      have h1 : sortLoopF R (f + 1) (n :: q) out deg =
          sortLoopF R f ((getD R n).foldl stepNbr (q, deg)).1 (out ++ [n])
            ((getD R n).foldl stepNbr (q, deg)).2 := rfl
      rw [h1]
      exact ihf _ _ _ hstep

/-! ## Assembly: facts about successful and failing resolutions -/

theorem resolve_eq (rules : List Rule) (ext : List String) :
    resolve rules ext =
      if (sortedOf ext rules).1.length ≠ (sortedOf ext rules).2.length then
        Except.error cycleMsg
      else
        Except.ok ((sortedOf ext rules).1.map
          (fun n => (n.name, (getD (elimGraphs ext rules).1 n).map Node.name))) := rfl

theorem consistent_elimGraphs (ext : List String) (rules : List Rule) (s : String) (p : Node)
    (h : Node.file s ∈ getD (elimGraphs ext rules).2 p) :
    p ∈ getD (elimGraphs ext rules).1 (Node.file s) := by
  rw [mem_elimGraphs_rg] at h
  obtain ⟨hpms, h⟩ := h
  rw [mem_elimGraphs_g]
  have hfs_notms : Node.file s ∉ modKeysOf ext rules := fun hc =>
    absurd (modKeysOf_isMod ext rules _ hc) (by simp [Node.isMod])
  refine ⟨hfs_notms, ?_⟩
  rcases h with ⟨hmem, -⟩ | ⟨m, hm, h1, h2⟩
  · cases p with
    | file t =>
      rw [mem_build_rg_file] at hmem
      obtain ⟨r, hr, -, m', -, heq⟩ := hmem
      exact absurd heq (file_ne_mod _ _)
    | mod mp =>
      rw [mem_build_rg_mod] at hmem
      obtain ⟨r, hr, hreq, hfeq⟩ := hmem
      left
      constructor
      · rw [mem_build_g_file]
        exact ⟨r, hr, Node.file.inj hfeq, mp, hreq, rfl⟩
      · rintro ⟨hc, -⟩
        exact hpms hc
  · exact Or.inr ⟨m, hm, h2, h1⟩

theorem sorted_inv (ext : List String) (rules : List Rule) :
    ∃ qF, SortInv (elimGraphs ext rules).1 (elimGraphs ext rules).2 qF
      (sortedOf ext rules).1 (sortedOf ext rules).2 := by
  obtain ⟨hkeys, hv1, hv2, hgm, hrm⟩ := elimInv_elimGraphs ext rules
  exact sortLoopF_inv (elimGraphs ext rules).1 (elimGraphs ext rules).2 hv2 _ _ _ _
    (sortInv_init (elimGraphs ext rules).1 (elimGraphs ext rules).2 hkeys)

theorem sorted_subset_keys (ext : List String) (rules : List Rule) :
    ∀ k ∈ (sortedOf ext rules).1, k ∈ keys (elimGraphs ext rules).1 := by
  obtain ⟨qF, inv⟩ := sorted_inv ext rules
  intro k hk
  obtain ⟨i, hget⟩ := List.mem_iff_get.mp hk
  have hsome := (inv.outSpec i.1 i.2).1
  simp only [Fin.eta] at hsome
  rw [hget] at hsome
  exact (isSome_buildDeg_iff _ k).mp hsome

theorem sorted_nodup (ext : List String) (rules : List Rule) :
    (sortedOf ext rules).1.Nodup := by
  obtain ⟨qF, inv⟩ := sorted_inv ext rules
  exact inv.nodupOut

theorem sorted_len_ge (ext : List String) (rules : List Rule) :
    (keys (elimGraphs ext rules).1).length ≤ (sortedOf ext rules).2.length := by
  obtain ⟨qF, inv⟩ := sorted_inv ext rules
  have := inv.lenLe
  rw [length_buildDeg] at this
  exact this

theorem sorted_ok_mem (ext : List String) (rules : List Rule)
    (hlen : (sortedOf ext rules).1.length = (sortedOf ext rules).2.length) :
    ∀ k, k ∈ (sortedOf ext rules).1 ↔ k ∈ keys (elimGraphs ext rules).1 := by
  have hkeysN : (keys (elimGraphs ext rules).1).Nodup := (elimInv_elimGraphs ext rules).1
  have hsub := sorted_subset_keys ext rules
  have hnd := sorted_nodup ext rules
  have hge : (keys (elimGraphs ext rules).1).length ≤ (sortedOf ext rules).1.length := by
    rw [hlen]; exact sorted_len_ge ext rules
  have hfin : (sortedOf ext rules).1.toFinset ⊆ (keys (elimGraphs ext rules).1).toFinset :=
    fun k hk => List.mem_toFinset.mpr (hsub k (List.mem_toFinset.mp hk))
  have hcard : (keys (elimGraphs ext rules).1).toFinset.card ≤
      (sortedOf ext rules).1.toFinset.card := by
    rw [List.toFinset_card_of_nodup hkeysN, List.toFinset_card_of_nodup hnd]
    exact hge
  have heq := Finset.eq_of_subset_of_card_le hfin hcard
  intro k
  constructor
  · exact hsub k
  · intro hk
    have : k ∈ (sortedOf ext rules).1.toFinset := by
      rw [heq]; exact List.mem_toFinset.mpr hk
    exact List.mem_toFinset.mp this

theorem sorted_deps_before (ext : List String) (rules : List Rule)
    (i : Nat) (hi : i < (sortedOf ext rules).1.length)
    (d : Node) (hd : d ∈ getD (elimGraphs ext rules).1 ((sortedOf ext rules).1.get ⟨i, hi⟩)) :
    ∃ j, ∃ hj : j < (sortedOf ext rules).1.length, j < i ∧
      (sortedOf ext rules).1.get ⟨j, hj⟩ = d := by
  obtain ⟨qF, inv⟩ := sorted_inv ext rules
  obtain ⟨hkeysN, hv1, hv2, hgm, hrm⟩ := elimInv_elimGraphs ext rules
  have hn_key : (sortedOf ext rules).1.get ⟨i, hi⟩ ∈ keys (elimGraphs ext rules).1 :=
    sorted_subset_keys ext rules _ (List.get_mem (sortedOf ext rules).1 i hi)
  have hnf : ((sortedOf ext rules).1.get ⟨i, hi⟩).isMod = false :=
    ((mem_keys_elimGraphs ext rules _).mp hn_key).2
  obtain ⟨s, hs⟩ : ∃ s, (sortedOf ext rules).1.get ⟨i, hi⟩ = Node.file s := by
    cases hget : (sortedOf ext rules).1.get ⟨i, hi⟩ with
    | file t => exact ⟨t, rfl⟩
    | mod t => rw [hget] at hnf; exact absurd hnf (by simp [Node.isMod])
  have hinit : (degLookup (buildDeg (elimGraphs ext rules).1)
      ((sortedOf ext rules).1.get ⟨i, hi⟩)).getD 0 =
      ((getD (elimGraphs ext rules).1 ((sortedOf ext rules).1.get ⟨i, hi⟩)).length : Int) :=
    getD_buildDeg_of_mem _ _ hn_key
  have hle := (inv.outSpec i hi).2
  rw [hinit] at hle
  have hfilter : ∀ p ∈ ((sortedOf ext rules).1.take i).filter
      (fun p => decide ((sortedOf ext rules).1.get ⟨i, hi⟩ ∈ getD (elimGraphs ext rules).2 p)),
      p ∈ getD (elimGraphs ext rules).1 ((sortedOf ext rules).1.get ⟨i, hi⟩) := by
    intro p hp
    obtain ⟨hp1, hp2⟩ := List.mem_filter.mp hp
    simp only [decide_eq_true_eq] at hp2
    rw [hs] at hp2 ⊢
    exact consistent_elimGraphs ext rules s p hp2
  have hSnodup : (((sortedOf ext rules).1.take i).filter
      (fun p => decide ((sortedOf ext rules).1.get ⟨i, hi⟩ ∈
        getD (elimGraphs ext rules).2 p))).Nodup :=
    ((inv.nodupOut.sublist (List.take_sublist i (sortedOf ext rules).1)).filter _)
  have hSlen : (((sortedOf ext rules).1.take i).filter
      (fun p => decide ((sortedOf ext rules).1.get ⟨i, hi⟩ ∈
        getD (elimGraphs ext rules).2 p))).length =
      decCount (elimGraphs ext rules).2 ((sortedOf ext rules).1.get ⟨i, hi⟩)
        ((sortedOf ext rules).1.take i) :=
    (List.countP_eq_length_filter _ _).symm
  have hfin : (((sortedOf ext rules).1.take i).filter
      (fun p => decide ((sortedOf ext rules).1.get ⟨i, hi⟩ ∈
        getD (elimGraphs ext rules).2 p))).toFinset ⊆
      (getD (elimGraphs ext rules).1 ((sortedOf ext rules).1.get ⟨i, hi⟩)).toFinset :=
    fun p hp => List.mem_toFinset.mpr (hfilter p (List.mem_toFinset.mp hp))
  have hcard : (getD (elimGraphs ext rules).1
      ((sortedOf ext rules).1.get ⟨i, hi⟩)).toFinset.card ≤
      (((sortedOf ext rules).1.take i).filter
        (fun p => decide ((sortedOf ext rules).1.get ⟨i, hi⟩ ∈
          getD (elimGraphs ext rules).2 p))).toFinset.card := by
    rw [List.toFinset_card_of_nodup (hv1 _), List.toFinset_card_of_nodup hSnodup, hSlen]
    exact_mod_cast hle
  have heq := Finset.eq_of_subset_of_card_le hfin hcard
  have hdS : d ∈ ((sortedOf ext rules).1.take i).filter
      (fun p => decide ((sortedOf ext rules).1.get ⟨i, hi⟩ ∈
        getD (elimGraphs ext rules).2 p)) := by
    refine List.mem_toFinset.mp ?_
    rw [heq]
    exact List.mem_toFinset.mpr hd
  have hdtake : d ∈ (sortedOf ext rules).1.take i := (List.mem_filter.mp hdS).1
  obtain ⟨jf, hjget⟩ := List.mem_iff_get.mp hdtake
  have hjlt : jf.1 < i := lt_of_lt_of_le jf.2 (by
    rw [List.length_take]; exact min_le_left i _)
  have hjlt2 : jf.1 < (sortedOf ext rules).1.length := lt_of_lt_of_le jf.2 (by
    rw [List.length_take]; exact min_le_right i _)
  refine ⟨jf.1, hjlt2, hjlt, ?_⟩
  have hgt : ((sortedOf ext rules).1.take i).get jf =
      (sortedOf ext rules).1.get ⟨jf.1, hjlt2⟩ := by
    rw [List.get_eq_getElem, List.get_eq_getElem]
    exact List.getElem_take _
  rw [← hjget, hgt]

/-! ## Absorption of duplicate `requires` entries -/

theorem addVal_self (g : Graph) (a b : Node) (h : b ∈ getD g a) : addVal g a b = g := by
  induction g with
  | nil => simp [getD, lookupG] at h
  | cons kv rest ih =>
    obtain ⟨k, v⟩ := kv
    rw [addVal_cons]
    by_cases hk : k = a
    · subst hk
      have hval : getD ((k, v) :: rest) k = v := by
        simp [getD, lookupG_cons]
      rw [hval] at h
      rw [if_pos rfl, if_pos h]
    · have hval : getD ((k, v) :: rest) a = getD rest a := by
        simp [getD, lookupG_cons, hk]
      rw [hval] at h
      rw [if_neg hk, ih h]

theorem setVal_self (g : Graph) (a : Node) (v : List Node) (h : lookupG g a = some v) :
    setVal g a v = g := by
  induction g with
  | nil => simp [lookupG] at h
  | cons kv rest ih =>
    obtain ⟨k, w⟩ := kv
    rw [setVal_cons]
    by_cases hk : k = a
    · subst hk
      rw [lookupG_cons, if_pos rfl] at h
      rw [if_pos rfl, Option.some.inj h]
    · rw [lookupG_cons, if_neg hk] at h
      rw [if_neg hk, ih h]

theorem requireOne_absorbed (ext : List String) (s : String) (st : Graph × Graph) (m : String)
    (hext : m ∈ stdModules ∨ m ∈ ext → lookupG st.1 (Node.mod m) = some [])
    (hfwd : Node.mod m ∈ getD st.1 (Node.file s))
    (hrev : Node.file s ∈ getD st.2 (Node.mod m)) :
    requireOne ext (Node.file s) st m = st := by
  have hg : (if m ∈ stdModules then setVal st.1 (Node.mod m) []
      else if m ∈ ext then setVal st.1 (Node.mod m) [] else st.1) = st.1 := by
    by_cases h1 : m ∈ stdModules
    · rw [if_pos h1, setVal_self _ _ _ (hext (Or.inl h1))]
    · rw [if_neg h1]
      by_cases h2 : m ∈ ext
      · rw [if_pos h2, setVal_self _ _ _ (hext (Or.inr h2))]
      · rw [if_neg h2]
  show (addVal (if m ∈ stdModules then setVal st.1 (Node.mod m) []
      else if m ∈ ext then setVal st.1 (Node.mod m) [] else st.1)
        (Node.file s) (Node.mod m),
    addVal st.2 (Node.mod m) (Node.file s)) = st
  rw [hg, addVal_self _ _ _ hfwd, addVal_self _ _ _ hrev]

theorem requireOne_done (ext : List String) (s : String) (st : Graph × Graph) (m : String) :
    (m ∈ stdModules ∨ m ∈ ext →
      lookupG (requireOne ext (Node.file s) st m).1 (Node.mod m) = some []) ∧
    Node.mod m ∈ getD (requireOne ext (Node.file s) st m).1 (Node.file s) ∧
    Node.file s ∈ getD (requireOne ext (Node.file s) st m).2 (Node.mod m) := by
  have hne : Node.mod m ≠ Node.file s := mod_ne_file _ _
  refine ⟨?_, ?_, ?_⟩
  · intro hcase
    show lookupG (addVal (if m ∈ stdModules then setVal st.1 (Node.mod m) []
        else if m ∈ ext then setVal st.1 (Node.mod m) [] else st.1)
      (Node.file s) (Node.mod m)) (Node.mod m) = some []
    rw [lookupG_addVal, if_neg hne]
    by_cases h1 : m ∈ stdModules
    · rw [if_pos h1, lookupG_setVal, if_pos rfl]
    · rcases hcase with hc | hc
      · exact absurd hc h1
      · rw [if_neg h1, if_pos hc, lookupG_setVal, if_pos rfl]
  · show Node.mod m ∈ getD (addVal (if m ∈ stdModules then setVal st.1 (Node.mod m) []
        else if m ∈ ext then setVal st.1 (Node.mod m) [] else st.1)
      (Node.file s) (Node.mod m)) (Node.file s)
    rw [mem_getD_addVal]
    exact Or.inr ⟨rfl, rfl⟩
  · show Node.file s ∈ getD (addVal st.2 (Node.mod m) (Node.file s)) (Node.mod m)
    rw [mem_getD_addVal]
    exact Or.inr ⟨rfl, rfl⟩

theorem requireOne_preserves (ext : List String) (s : String) (st : Graph × Graph)
    (m a : String) (hne : a ≠ m)
    (hext : m ∈ stdModules ∨ m ∈ ext → lookupG st.1 (Node.mod m) = some [])
    (hfwd : Node.mod m ∈ getD st.1 (Node.file s))
    (hrev : Node.file s ∈ getD st.2 (Node.mod m)) :
    (m ∈ stdModules ∨ m ∈ ext →
      lookupG (requireOne ext (Node.file s) st a).1 (Node.mod m) = some []) ∧
    Node.mod m ∈ getD (requireOne ext (Node.file s) st a).1 (Node.file s) ∧
    Node.file s ∈ getD (requireOne ext (Node.file s) st a).2 (Node.mod m) := by
  have hmodne : Node.mod m ≠ Node.mod a := fun hc => hne (Node.mod.inj hc).symm
  have hglook : lookupG (if a ∈ stdModules then setVal st.1 (Node.mod a) []
      else if a ∈ ext then setVal st.1 (Node.mod a) [] else st.1) (Node.mod m) =
      lookupG st.1 (Node.mod m) := by
    by_cases h1 : a ∈ stdModules
    · rw [if_pos h1, lookupG_setVal, if_neg hmodne]
    · rw [if_neg h1]
      by_cases h2 : a ∈ ext
      · rw [if_pos h2, lookupG_setVal, if_neg hmodne]
      · rw [if_neg h2]
  refine ⟨?_, ?_, ?_⟩
  · intro hcase
    show lookupG (addVal (if a ∈ stdModules then setVal st.1 (Node.mod a) []
        else if a ∈ ext then setVal st.1 (Node.mod a) [] else st.1)
      (Node.file s) (Node.mod a)) (Node.mod m) = some []
    rw [lookupG_addVal, if_neg (mod_ne_file _ _), hglook]
    exact hext hcase
  · show Node.mod m ∈ getD (addVal (if a ∈ stdModules then setVal st.1 (Node.mod a) []
        else if a ∈ ext then setVal st.1 (Node.mod a) [] else st.1)
      (Node.file s) (Node.mod a)) (Node.file s)
    rw [mem_getD_addVal]
    refine Or.inl ?_
    show Node.mod m ∈ (lookupG (if a ∈ stdModules then setVal st.1 (Node.mod a) []
        else if a ∈ ext then setVal st.1 (Node.mod a) [] else st.1) (Node.file s)).getD []
    have hfl : lookupG (if a ∈ stdModules then setVal st.1 (Node.mod a) []
        else if a ∈ ext then setVal st.1 (Node.mod a) [] else st.1) (Node.file s) =
        lookupG st.1 (Node.file s) := by
      by_cases h1 : a ∈ stdModules
      · rw [if_pos h1, lookupG_setVal, if_neg (file_ne_mod _ _)]
      · rw [if_neg h1]
        by_cases h2 : a ∈ ext
        · rw [if_pos h2, lookupG_setVal, if_neg (file_ne_mod _ _)]
        · rw [if_neg h2]
    rw [hfl]
    exact hfwd
  · show Node.file s ∈ getD (addVal st.2 (Node.mod a) (Node.file s)) (Node.mod m)
    rw [mem_getD_addVal]
    exact Or.inl hrev

theorem reqFold_filter (ext : List String) (s : String) (m : String) :
    ∀ (l : List String) (st : Graph × Graph),
      (m ∈ stdModules ∨ m ∈ ext → lookupG st.1 (Node.mod m) = some []) →
      Node.mod m ∈ getD st.1 (Node.file s) →
      Node.file s ∈ getD st.2 (Node.mod m) →
      l.foldl (requireOne ext (Node.file s)) st =
        (l.filter (· ≠ m)).foldl (requireOne ext (Node.file s)) st := by
  intro l
  induction l with
  | nil => intro st _ _ _; rfl
  | cons a l2 ih =>
    intro st hext hfwd hrev
    by_cases ha : a = m
    · subst ha
      rw [List.foldl_cons, requireOne_absorbed ext s st a hext hfwd hrev]
      have hfil : (a :: l2).filter (· ≠ a) = l2.filter (· ≠ a) := by
        rw [List.filter_cons, if_neg (by simp)]
      rw [hfil]
      exact ih st hext hfwd hrev
    · have hfil : (a :: l2).filter (· ≠ m) = a :: l2.filter (· ≠ m) := by
        rw [List.filter_cons, if_pos (by simp [ha])]
      rw [hfil, List.foldl_cons, List.foldl_cons]
      obtain ⟨h1, h2, h3⟩ := requireOne_preserves ext s st m a ha hext hfwd hrev
      exact ih _ h1 h2 h3

theorem reqFold_collapse (ext : List String) (s : String) :
    ∀ (k : Nat) (l : List String), l.length ≤ k → ∀ st : Graph × Graph,
      l.foldl (requireOne ext (Node.file s)) st =
        (collapseFirst l).foldl (requireOne ext (Node.file s)) st := by
  intro k
  induction k with
  | zero =>
    intro l hl st
    have hnil : l = [] := List.length_eq_zero.mp (Nat.le_zero.mp hl)
    subst hnil
    rw [collapseFirst]
  | succ k ih =>
    intro l hl st
    cases l with
    | nil => rw [collapseFirst]
    | cons a l2 =>
      have hcoll : collapseFirst (a :: l2) = a :: collapseFirst (l2.filter (· ≠ a)) := by
        rw [collapseFirst]
      rw [hcoll, List.foldl_cons, List.foldl_cons]
      obtain ⟨h1, h2, h3⟩ := requireOne_done ext s st a
      rw [reqFold_filter ext s a l2 _ h1 h2 h3]
      exact ih (l2.filter (· ≠ a))
        (le_trans (List.length_filter_le _ _) (Nat.succ_le_succ_iff.mp hl)) _

theorem requireStep_collapse (ext : List String) (st : Graph × Graph) (r : Rule) :
    requireStep ext st (collapseRule r) = requireStep ext st r := by
  show (collapseFirst r.requires).foldl (requireOne ext (Node.file r.primaryOutput)) st =
    r.requires.foldl (requireOne ext (Node.file r.primaryOutput)) st
  exact (reqFold_collapse ext r.primaryOutput r.requires.length r.requires le_rfl st).symm

theorem buildGraphs_collapse (ext : List String) (rules : List Rule) :
    buildGraphs ext (rules.map collapseRule) = buildGraphs ext rules := by
  unfold buildGraphs
  rw [List.foldl_map, List.foldl_map]
  have hprov : rules.foldl (fun st r => provideStep st (collapseRule r))
      (([], []) : Graph × Graph) = rules.foldl provideStep ([], []) := rfl
  rw [hprov]
  exact List.foldl_ext _ _ _ (fun st r hr => requireStep_collapse ext st r)

theorem elimGraphs_collapse (ext : List String) (rules : List Rule) :
    elimGraphs ext (rules.map collapseRule) = elimGraphs ext rules := by
  unfold elimGraphs modKeysOf
  rw [buildGraphs_collapse]

/-! ## The two branches of `resolve` -/

theorem resolve_ok_cases (rules : List Rule) (ext : List String)
    (ts : List (String × List String)) (h : resolve rules ext = Except.ok ts) :
    (sortedOf ext rules).1.length = (sortedOf ext rules).2.length ∧
      ts = (sortedOf ext rules).1.map
        (fun n => (n.name, (getD (elimGraphs ext rules).1 n).map Node.name)) := by
  rw [resolve_eq] at h
  by_cases hlen : (sortedOf ext rules).1.length ≠ (sortedOf ext rules).2.length
  · rw [if_pos hlen] at h
    exact absurd h (by simp)
  · rw [if_neg hlen] at h
    exact ⟨not_not.mp hlen, (Except.ok.inj h).symm⟩

theorem resolve_err_cases (rules : List Rule) (ext : List String) (e : String)
    (h : resolve rules ext = Except.error e) : e = cycleMsg := by
  rw [resolve_eq] at h
  by_cases hlen : (sortedOf ext rules).1.length ≠ (sortedOf ext rules).2.length
  · rw [if_pos hlen] at h
    exact (Except.error.inj h).symm
  · rw [if_neg hlen] at h
    exact absurd h (by simp)

theorem ok_deps_before (rules : List Rule) (ext : List String)
    (ts : List (String × List String)) (h : resolve rules ext = Except.ok ts)
    (i : Nat) (hi : i < ts.length) (dep : String) (hdep : dep ∈ (ts.get ⟨i, hi⟩).2) :
    ∃ j, ∃ hj : j < ts.length, j < i ∧ (ts.get ⟨j, hj⟩).1 = dep := by
  obtain ⟨hlen, hts⟩ := resolve_ok_cases rules ext ts h
  subst hts
  have hi2 : i < (sortedOf ext rules).1.length := by
    rw [List.length_map] at hi
    exact hi
  have hget : ((sortedOf ext rules).1.map
      (fun n => (n.name, (getD (elimGraphs ext rules).1 n).map Node.name))).get ⟨i, hi⟩ =
      (((sortedOf ext rules).1.get ⟨i, hi2⟩).name,
        (getD (elimGraphs ext rules).1 ((sortedOf ext rules).1.get ⟨i, hi2⟩)).map
          Node.name) := by
    rw [List.get_map]
  rw [hget] at hdep
  rw [List.mem_map] at hdep
  obtain ⟨x, hx, hxeq⟩ := hdep
  obtain ⟨j, hj, hji, hjget⟩ := sorted_deps_before ext rules i hi2 x hx
  have hj2 : j < ((sortedOf ext rules).1.map
      (fun n => (n.name, (getD (elimGraphs ext rules).1 n).map Node.name))).length := by
    rw [List.length_map]
    exact hj
  refine ⟨j, hj2, hji, ?_⟩
  have hgetj : ((sortedOf ext rules).1.map
      (fun n => (n.name, (getD (elimGraphs ext rules).1 n).map Node.name))).get ⟨j, hj2⟩ =
      (((sortedOf ext rules).1.get ⟨j, hj⟩).name,
        (getD (elimGraphs ext rules).1 ((sortedOf ext rules).1.get ⟨j, hj⟩)).map
          Node.name) := by
    rw [List.get_map]
  rw [hgetj]
  show ((sortedOf ext rules).1.get ⟨j, hj⟩).name = dep
  rw [hjget, ← hxeq]

/-! ## The claims -/

/-- C1 (amended): on success, the output Task identifiers are exactly the
`primaryOutput` values of the rules that have at least one `provides` or
`requires` entry — a rule with neither is dropped before the sort — and module
names never appear as identifiers. -/
theorem C1_task_ids (rules : List Rule) (ext : List String)
    (ts : List (String × List String)) (h : resolve rules ext = Except.ok ts)
    (s : String) :
    s ∈ taskIds ts ↔
      ∃ r ∈ rules, (r.provides ≠ [] ∨ r.requires ≠ []) ∧ s = r.primaryOutput := by
  obtain ⟨hlen, hts⟩ := resolve_ok_cases rules ext ts h
  subst hts
  rw [← file_key_elimGraphs]
  unfold taskIds
  rw [List.map_map, List.mem_map]
  constructor
  · rintro ⟨n, hn, hneq⟩
    have hkey := sorted_subset_keys ext rules n hn
    have hnf := ((mem_keys_elimGraphs ext rules n).mp hkey).2
    cases n with
    | mod t => exact absurd hnf (by simp [Node.isMod])
    | file t =>
      have hts2 : t = s := hneq
      rw [← hts2]
      exact hkey
  · intro hkey
    exact ⟨Node.file s, (sorted_ok_mem ext rules hlen (Node.file s)).mpr hkey, rfl⟩

/-- C1 witness: the amended characterisation evaluated on `chainRules`. -/
theorem C1_task_ids_witness : "b.o" ∈ taskIds chainTasks ↔
    ∃ r ∈ chainRules, (r.provides ≠ [] ∨ r.requires ≠ []) ∧ "b.o" = r.primaryOutput :=
  C1_task_ids chainRules [] chainTasks (by decide) "b.o"

/-- C1 counterexample: the rule `lonely.o` has no `provides` and no `requires`
entries; resolution succeeds with an empty task list, so its primary output is
missing from the output identifiers. -/
theorem C1_cex : resolve lonelyRules [] = Except.ok [] ∧
    "lonely.o" ∉ taskIds ([] : List (String × List String)) ∧
    "lonely.o" ∈ lonelyRules.map Rule.primaryOutput :=
  ⟨by decide, by decide, by decide⟩

/-- C2 (confirmed): in every returned task list, each dependency identifier of
the task at position `i` is the identifier of a task at a strictly earlier
position `j < i`. -/
theorem C2_no_forward_reference (rules : List Rule) (ext : List String)
    (ts : List (String × List String)) (h : resolve rules ext = Except.ok ts)
    (i : Nat) (hi : i < ts.length) (dep : String) (hdep : dep ∈ (ts.get ⟨i, hi⟩).2) :
    ∃ j, ∃ hj : j < ts.length, j < i ∧ (ts.get ⟨j, hj⟩).1 = dep :=
  ok_deps_before rules ext ts h i hi dep hdep

/-- C2 witness: the no-forward-reference property at position 1 of the chain
input's output. -/
theorem C2_no_forward_reference_witness :
    ∃ j, ∃ hj : j < chainTasks.length, j < 1 ∧ (chainTasks.get ⟨j, hj⟩).1 = "b.o" :=
  C2_no_forward_reference chainRules [] chainTasks (by decide) 1 (by decide)
    "b.o" (by decide)

/-- C3 (amended): every dependency edge of a successful output arises from a
module name that is not external (neither in `std_modules` nor in the supplied
set), required by the task's rule and provided by the dependency's rule; hence
an external requirement never contributes a dependency.  The success half of
the original claim is refuted by `C3_cex`: a provided-and-required external
module makes resolution fail. -/
theorem C3_external_dep_free (rules : List Rule) (ext : List String)
    (ts : List (String × List String)) (h : resolve rules ext = Except.ok ts)
    (t : String × List String) (ht : t ∈ ts) (dep : String) (hdep : dep ∈ t.2) :
    ∃ mn, mn ∉ stdModules ∧ mn ∉ ext ∧
      (∃ r ∈ rules, t.1 = r.primaryOutput ∧ mn ∈ r.requires) ∧
      ∃ r2 ∈ rules, dep = r2.primaryOutput ∧ mn ∈ r2.provides := by
  obtain ⟨hlen, hts⟩ := resolve_ok_cases rules ext ts h
  subst hts
  rw [List.mem_map] at ht
  obtain ⟨n, hn, hteq⟩ := ht
  have hkey := sorted_subset_keys ext rules n hn
  have hnf := ((mem_keys_elimGraphs ext rules n).mp hkey).2
  cases n with
  | mod u => exact absurd hnf (by simp [Node.isMod])
  | file s =>
    rw [← hteq] at hdep
    have hdep2 : dep ∈ (getD (elimGraphs ext rules).1 (Node.file s)).map Node.name := hdep
    rw [List.mem_map] at hdep2
    obtain ⟨x, hx, hxeq⟩ := hdep2
    obtain ⟨i, hget⟩ := List.mem_iff_get.mp hn
    have hxd : x ∈ getD (elimGraphs ext rules).1
        ((sortedOf ext rules).1.get ⟨i.1, i.2⟩) := by
      simp only [Fin.eta]
      rw [hget]
      exact hx
    obtain ⟨j, hj, hji, hjeq⟩ := sorted_deps_before ext rules i.1 i.2 x hxd
    have hxmem : x ∈ (sortedOf ext rules).1 := by
      rw [← hjeq]
      exact List.get_mem _ _ _
    have hxf : x.isMod = false :=
      ((mem_keys_elimGraphs ext rules x).mp (sorted_subset_keys ext rules x hxmem)).2
    obtain ⟨mn, h1, h2, ⟨r, hr, hsr, hmr⟩, r2, hr2, hxr2, hmr2⟩ :=
      dep_edge_provenance ext rules s x hx hxf
    refine ⟨mn, h1, h2, ⟨r, hr, ?_, hmr⟩, r2, hr2, ?_, hmr2⟩
    · rw [← hteq]
      exact hsr
    · rw [← hxeq]
      exact congrArg Node.name hxr2

/-- C3 witness: the amended provenance statement on the `abRules` input, whose
rule `b.o` requires both the project module `A` and the external `"std"`. -/
theorem C3_external_dep_free_witness :
    ∃ mn, mn ∉ stdModules ∧ mn ∉ ([] : List String) ∧
      (∃ r ∈ abRules, "b.o" = r.primaryOutput ∧ mn ∈ r.requires) ∧
      ∃ r2 ∈ abRules, "a.o" = r2.primaryOutput ∧ mn ∈ r2.provides :=
  C3_external_dep_free abRules [] abTasks (by decide) ("b.o", ["a.o"]) (by decide)
    "a.o" (by decide)

/-- C3 counterexample: `"std"` is a built-in external module, rule `A.o`
provides it and rule `B.o` requires it; resolution fails with the cycle error
instead of succeeding. -/
theorem C3_cex : resolve extProvidedRules [] = Except.error cycleMsg ∧
    "std" ∈ stdModules :=
  ⟨by decide, by decide⟩

/-- C4 (confirmed): the X–Y cycle through rules B and C makes resolution fail
with the fatal cycle-detected error, so no task list is produced. -/
theorem C4_cycle_rejected : resolve c4rules [] = Except.error cycleMsg := by decide

/-- C5 (amended): every failure of `resolve` carries exactly the fixed string
"Detected cycle in module dependency graph!" and therefore no identifiers of
the unresolved nodes.  The original claim is refuted by `C5_cex`. -/
theorem C5_error_is_fixed_message (rules : List Rule) (ext : List String) (e : String)
    (h : resolve rules ext = Except.error e) :
    e = "Detected cycle in module dependency graph!" :=
  resolve_err_cases rules ext e h

/-- C5 witness: the fixed-message theorem evaluated on a failing input. -/
theorem C5_error_is_fixed_message_witness :
    cycleMsg = "Detected cycle in module dependency graph!" :=
  C5_error_is_fixed_message extProvidedRules [] cycleMsg (by decide)

/-- C5 counterexample: two different cyclic inputs produce the identical fixed
error string, which names no nodes. -/
theorem C5_cex :
    resolve selfCycleRules [] =
      Except.error "Detected cycle in module dependency graph!" ∧
    resolve c4rules [] =
      Except.error "Detected cycle in module dependency graph!" :=
  ⟨by decide, by decide⟩

/-- C6 (amended): a dangling module requirement (no provider, not external) is
not silently dropped — it makes the whole resolution fail with the cycle
error, because the module node stays in its consumer's dependency set while
never becoming a sortable key.  The original claim is refuted by `C6_cex`. -/
theorem C6_dangling_fails (rules : List Rule) (ext : List String) (r : Rule)
    (hr : r ∈ rules) (mn : String) (hm : mn ∈ r.requires)
    (hnstd : mn ∉ stdModules) (hnext : mn ∉ ext)
    (hnoprov : ∀ r2 ∈ rules, mn ∉ r2.provides) :
    resolve rules ext = Except.error cycleMsg := by
  cases hres : resolve rules ext with
  | error e =>
    rw [resolve_err_cases rules ext e hres]
  | ok ts =>
    exfalso
    obtain ⟨hlen, -⟩ := resolve_ok_cases rules ext ts hres
    obtain ⟨hedge, hnkey, hfkey⟩ := dangling_edge ext rules r hr mn hm hnstd hnext hnoprov
    have hfmem : Node.file r.primaryOutput ∈ (sortedOf ext rules).1 :=
      (sorted_ok_mem ext rules hlen _).mpr hfkey
    obtain ⟨i, hget⟩ := List.mem_iff_get.mp hfmem
    have hd : Node.mod mn ∈ getD (elimGraphs ext rules).1
        ((sortedOf ext rules).1.get ⟨i.1, i.2⟩) := by
      simp only [Fin.eta]
      rw [hget]
      exact hedge
    obtain ⟨j, hj, -, hjeq⟩ := sorted_deps_before ext rules i.1 i.2 (Node.mod mn) hd
    have hmm : Node.mod mn ∈ (sortedOf ext rules).1 := by
      rw [← hjeq]
      exact List.get_mem _ _ _
    exact hnkey (sorted_subset_keys ext rules _ hmm)

/-- C6 witness: the dangling-failure theorem evaluated on `danglingRules`. -/
theorem C6_dangling_fails_witness : resolve danglingRules [] = Except.error cycleMsg :=
  C6_dangling_fails danglingRules [] ⟨"A.o", [], ["ghost"]⟩ (by decide) "ghost"
    (by decide) (by decide) (by decide) (by decide)

/-- C6 counterexample: the single rule requiring the unprovided, non-external
module `ghost` makes resolution fail rather than dropping the reference. -/
theorem C6_cex : resolve danglingRules [] = Except.error cycleMsg := by decide

/-- C7 (confirmed): on the five-rule module-partition input, resolution
succeeds, places interface_part.o before impl_part.o before M.o before both
Impl.o and User.o, and gives Impl.o exactly the dependency M.o. -/
theorem C7_transitive_contraction :
    resolve m5rules [] = Except.ok m5tasks ∧
    taskPos m5tasks "interface_part.o" < taskPos m5tasks "impl_part.o" ∧
    taskPos m5tasks "impl_part.o" < taskPos m5tasks "M.o" ∧
    taskPos m5tasks "M.o" < taskPos m5tasks "Impl.o" ∧
    taskPos m5tasks "M.o" < taskPos m5tasks "User.o" ∧
    taskDeps m5tasks "Impl.o" = ["M.o"] :=
  ⟨by decide, by decide, by decide, by decide, by decide, by decide⟩

/-- C8 (confirmed): eliminating the builder's module keys in any order yields
the same file-only forward and reverse mappings, read as value-set membership
(the Python dictionaries map nodes to sets, which carry no order). -/
theorem C8_elim_order_independent (ext : List String) (rules : List Rule)
    (ms : List Node) (hperm : ms.Perm (modKeysOf ext rules)) (n x : Node) :
    (x ∈ getD (ms.foldl elimOne (buildGraphs ext rules)).1 n ↔
      x ∈ getD (elimGraphs ext rules).1 n) ∧
    (x ∈ getD (ms.foldl elimOne (buildGraphs ext rules)).2 n ↔
      x ∈ getD (elimGraphs ext rules).2 n) := by
  have hmods : ∀ m ∈ ms, m.isMod = true := fun m hm =>
    modKeysOf_isMod ext rules m (hperm.mem_iff.mp hm)
  have hnd : ms.Nodup := hperm.nodup_iff.mpr (modKeysOf_nodup ext rules)
  constructor
  · rw [mem_elimFold_g ms (buildGraphs ext rules) (elimInv_build ext rules) hmods hnd,
      mem_elimGraphs_g]
    simp only [hperm.mem_iff]
  · rw [mem_elimFold_rg ms (buildGraphs ext rules) (elimInv_build ext rules) hmods hnd,
      mem_elimGraphs_rg]
    simp only [hperm.mem_iff]

/-- C8 witness: concrete order-independence on the cycle input, eliminating
`Y` before `X` against the builder's order `X` then `Y`. -/
theorem C8_elim_order_independent_witness :
    (Node.file "B.o" ∈ getD ([Node.mod "Y", Node.mod "X"].foldl elimOne
        (buildGraphs [] c4rules)).1 (Node.file "A.o") ↔
      Node.file "B.o" ∈ getD (elimGraphs [] c4rules).1 (Node.file "A.o")) ∧
    (Node.file "B.o" ∈ getD ([Node.mod "Y", Node.mod "X"].foldl elimOne
        (buildGraphs [] c4rules)).2 (Node.file "A.o") ↔
      Node.file "B.o" ∈ getD (elimGraphs [] c4rules).2 (Node.file "A.o")) :=
  C8_elim_order_independent [] c4rules [Node.mod "Y", Node.mod "X"] (by decide)
    (Node.file "A.o") (Node.file "B.o")

/-- C9 (confirmed): collapsing every rule's duplicate `requires` entries to
their first occurrence leaves the result of `resolve` unchanged — a repeated
requirement never counts as a second edge. -/
theorem C9_duplicate_requires_collapse (rules : List Rule) (ext : List String) :
    resolve (rules.map collapseRule) ext = resolve rules ext := by
  have h2 : sortedOf ext (rules.map collapseRule) = sortedOf ext rules := by
    unfold sortedOf
    rw [elimGraphs_collapse]
  rw [resolve_eq, resolve_eq, h2, elimGraphs_collapse]

/-- C10 (confirmed): every identifier appearing in any task's dependency list
is itself the identifier of a task of the same returned list. -/
theorem C10_deps_are_task_ids (rules : List Rule) (ext : List String)
    (ts : List (String × List String)) (h : resolve rules ext = Except.ok ts)
    (t : String × List String) (ht : t ∈ ts) (dep : String) (hdep : dep ∈ t.2) :
    dep ∈ taskIds ts := by
  obtain ⟨i, hget⟩ := List.mem_iff_get.mp ht
  have hdep2 : dep ∈ (ts.get ⟨i.1, i.2⟩).2 := by
    simp only [Fin.eta]
    rw [hget]
    exact hdep
  obtain ⟨j, hj, -, hjeq⟩ := ok_deps_before rules ext ts h i.1 i.2 dep hdep2
  unfold taskIds
  rw [List.mem_map]
  exact ⟨ts.get ⟨j, hj⟩, List.get_mem _ _ _, hjeq⟩

/-- C10 witness: dependency-closure evaluated on the chain input. -/
theorem C10_deps_are_task_ids_witness : "b.o" ∈ taskIds chainTasks :=
  C10_deps_are_task_ids chainRules [] chainTasks (by decide) ("c.o", ["b.o"])
    (by decide) "b.o" (by decide)

end Cuv
